import Mathlib

/-
  Verification of the tslox bytecode back-end (the lox2 compiler/VM pair)
  against its natural-language specification.

  The definitions below are a shallow embedding of the TypeScript sources:
    - src/lox2/main.ts  (scanner, chunk/value model, string pool, Table)
    - src/lox2/vm.ts    (the virtual machine)

  Modelling conventions, used consistently below:
    - JavaScript numbers that are used as 32-bit integers are modelled as
      Int with explicit reductions modulo 2^32 (toInt32 / toUint32); the
      one place where a JS number escapes the 32-bit range (the multiply
      inside hashString) models IEEE-754 double rounding explicitly on
      integers (rdF64).
    - JS `undefined` (array holes, absent table slots) is modelled as
      `none` of an Option type; a stored value (including Lox nil, which
      is JS `null`) is `some`.
    - Lox numbers are abstracted to Int: no claim under verification
      depends on float arithmetic results, only on the dynamic type tests
      that guard them.
    - Objects are heap records addressed by index; JS reference equality
      on interned strings is modelled by structural equality of LoxStr
      records that carry an allocation id.
    - Unbounded JS loops (`for(;;)`) are modelled with explicit fuel; a
      `none` result of such a function means the JS loop has not returned
      within that fuel.  Theorems showing `none` for every fuel exhibit
      nontermination of the source loop.
-/

namespace TsLox

/-! ## JS 32-bit integer primitives -/

/-- The unsigned 32-bit residue of a JS integer (ECMAScript ToUint32 for
integer-valued numbers). -/
def toUint32 (n : Int) : Nat := (n % (2^32 : Int)).toNat

/-- ECMAScript ToInt32 for integer-valued numbers: the residue modulo 2^32,
reinterpreted in the range [-2^31, 2^31). -/
def toInt32 (n : Int) : Int :=
  if toUint32 n < 2^31 then (toUint32 n : Int) else (toUint32 n : Int) - 2^32

/-- The JS `^` operator on integer-valued numbers: both operands are taken
to 32 bits, xor-ed, and the result is a signed 32-bit integer. -/
def jsXor (a b : Int) : Int := toInt32 (((toUint32 a) ^^^ (toUint32 b) : Nat) : Int)

/-- Floor of log2, by structural recursion on a fuel bound (so that the
kernel can evaluate it; the fuel `n` itself always suffices). -/
def log2floor : Nat → Nat → Nat
  | 0, _ => 0
  | fuel+1, n => if n ≤ 1 then 0 else log2floor fuel (n / 2) + 1

/-- Round a nonnegative integer to the nearest IEEE-754 double
(round-to-nearest, ties-to-even): integers below 2^53 are exact; above, the
representable doubles are the multiples of 2^(log2 a - 52). -/
def rdPos (a : Nat) : Nat :=
  if a < 2^53 then a
  else
    let e := log2floor a a - 52
    let q := a / 2^e
    let r := a % 2^e
    if 2*r < 2^e then q * 2^e
    else if 2*r > 2^e then (q+1) * 2^e
    else (if q % 2 = 0 then q else q+1) * 2^e

/-- Round an integer to the nearest IEEE-754 double (the rounding JS applies
to the exact product of a multiplication of integer-valued doubles). -/
def rdF64 (n : Int) : Int := if 0 ≤ n then (rdPos n.toNat : Int) else - (rdPos (-n).toNat : Int)

/-! ## hashString (src/lox2/main.ts)

```ts
export function hashString(key: string) {
  let hash = 2166136261;
  for (let i = 0; i < key.length; i++) {
    hash ^= key.charCodeAt(i);
    hash *= 16777619;
  }
  return hash | 0;
}
```
The `^=` performs ToInt32 on the accumulator; the `*=` is exact double
multiplication of a signed 32-bit integer by 16777619, which can exceed
2^53 and therefore round. -/

/-- One loop iteration of hashString: `hash ^= c; hash *= 16777619` in JS
number semantics. -/
def hashStep (hash : Int) (c : Nat) : Int := rdF64 (jsXor hash c * 16777619)

/-- The source hashString, over the UTF-16-free fragment (each character is
one code unit, which holds for all keys appearing in the claims). -/
def hashString (key : String) : Int :=
  toInt32 (key.data.foldl (fun h ch => hashStep h ch.toNat) 2166136261)

/-- Modelled from the claim wording, for comparison: the exact 32-bit
FNV-1a hash, every step taken modulo 2^32. -/
def fnv1a32 (key : String) : Nat :=
  key.data.foldl (fun h ch => ((h ^^^ ch.toNat) * 16777619) % 2^32) (2166136261 % 2^32)

/-- The intermediate products computed by hashString's multiplications,
before double rounding. -/
def hashProductsAux : List Char → Int → List Int
  | [], _ => []
  | c :: cs, h => (jsXor h c.toNat * 16777619) :: hashProductsAux cs (hashStep h c.toNat)

/-- The intermediate products of `hashString key`. -/
def hashProducts (key : String) : List Int := hashProductsAux key.data 2166136261

/-- A key's hash computation is free of double rounding when every
intermediate product is exactly representable. -/
def ExactFnv (key : String) : Prop := ∀ p ∈ hashProducts key, rdF64 p = p

instance (key : String) : Decidable (ExactFnv key) := by
  unfold ExactFnv; infer_instance

/-! ## The lox2 scanner's string() method (src/lox2/main.ts)

```ts
string() {
  while (this.peek() !== '"') {
    if (this.peek() === "\n") this.nextLine();
    this.current++;
  }
  if (this.done()) {
    return this.error("Unfinished string");
  }
  this.current++;
  return this.token(TokenType.STRING);
}
```
`peek()` is `this.source[this.current]`, which is `undefined` once
`current` is past the end; `undefined !== '"'` keeps the loop running.  The
loop is modelled with fuel; `none` means the loop is still running after
that many iterations. -/

/-- Scanner state while scanning a string literal: current position, line
number and line start (the fields `string()` touches). -/
structure ScanState where
  current : Nat
  line : Nat
  lineStart : Nat
deriving DecidableEq, Repr

/-- The `while (this.peek() !== '"')` loop of `string()`.  Returns the
state at loop exit, or `none` if the loop has not exited within `fuel`
iterations. -/
def stringLoop (source : List Char) (st : ScanState) : Nat → Option ScanState
  | 0 => none
  | fuel + 1 =>
    match source.get? st.current with
    | some c =>
      if c = '"' then some st
      else if c = '\n' then
        stringLoop source { current := st.current + 1, line := st.line + 1, lineStart := st.current } fuel
      else
        stringLoop source { st with current := st.current + 1 } fuel
    | none =>
      -- peek() is undefined, which is !== '"', so the loop keeps running
      stringLoop source { st with current := st.current + 1 } fuel

/-- Result of `string()`: an ERROR token ("Unfinished string"), a STRING
token, or nontermination of its loop (`none`). -/
inductive StringScanResult where
  | errorTok (message : String) (line : Nat) (column : Int)
  | stringTok (line : Nat) (column : Int)
deriving DecidableEq, Repr

/-- The whole `string()` method, with fuel for its loop. -/
def scanStringLit (source : List Char) (st : ScanState) (fuel : Nat) :
    Option StringScanResult :=
  match stringLoop source st fuel with
  | none => none
  | some st1 =>
    if st1.current ≥ source.length then
      some (.errorTok "Unfinished string" st1.line ((st1.current : Int) - st1.lineStart))
    else
      some (.stringTok st1.line ((st1.current + 1 : Int) - st1.lineStart))

/-! ## Interned strings and the open-addressed Table (src/lox2/main.ts)

`LoxString` objects carry their characters and precomputed hash; `id` models
JS object identity (each `new LoxString` allocates a fresh id), so structural
equality of `LoxStr` models the reference equality `===` used by the table. -/

structure LoxStr where
  id : Nat
  chars : String
  hash : Int
deriving DecidableEq, Repr

/-- The open-addressed hash table.  `keys`/`values` are the parallel backing
arrays (`none` = a JS hole / `undefined`), `count` and `capacity` the private
counters.  The value type is a parameter; the source always instantiates it
with Value. -/
structure Table (α : Type) where
  count : Nat
  capacity : Nat
  keys : Array (Option LoxStr)
  values : Array (Option α)
deriving Repr, DecidableEq

def Table.empty {α : Type} : Table α := ⟨0, 0, #[], #[]⟩

/-- The initial probe index `key.hash & mask` (JS 32-bit bitwise and). -/
def probeStart (hash : Int) (mask : Nat) : Nat := toUint32 hash &&& mask

/-- The `for(;;)` probe loop of `Table.#find`, with fuel.  `tombstone` is the
running tombstone index; the source overwrites it at every tombstone slot and
returns it (or the empty slot's index) on reaching an empty slot, or the index
of a slot whose key is reference-equal to `key`. -/
def findLoop {α : Type} (keys : Array (Option LoxStr)) (values : Array (Option α))
    (mask : Nat) (key : LoxStr) :
    Option Nat → Nat → Nat → Option Nat
  | _, _, 0 => none
  | tombstone, index, fuel+1 =>
    match keys.getD index none with
    | none =>
      match values.getD index none with
      | none => some (tombstone.getD index)
      | some _ => findLoop keys values mask key (some index) ((index+1) &&& mask) fuel
    | some key2 =>
      if key = key2 then some index
      else findLoop keys values mask key tombstone ((index+1) &&& mask) fuel

/-- `Table.#find`.  The source loop is unbounded; fuel `keys.size` (= the
capacity) is enough whenever the arrays have a fully-empty slot, which the
reachability invariant below guarantees; `none` means the source loop would
not have terminated within `capacity` probes. -/
def tfind {α : Type} (keys : Array (Option LoxStr)) (values : Array (Option α))
    (mask : Nat) (key : LoxStr) : Option Nat :=
  findLoop keys values mask key none (probeStart key.hash mask) keys.size

/-- One iteration of `Table.#grow`'s reinsertion loop over the old slots. -/
def growStep {α : Type} (t : Table α) (mask : Nat)
    (acc : Option (Array (Option LoxStr) × Array (Option α) × Nat)) (i : Nat) :
    Option (Array (Option LoxStr) × Array (Option α) × Nat) :=
  match acc with
  | none => none
  | some (keys, values, count) =>
    match t.keys.getD i none with
    | none => some (keys, values, count)
    | some key =>
      match tfind keys values mask key with
      | none => none
      | some index =>
        some (keys.setD index (some key),
              values.setD index (t.values.getD i none), count + 1)

/-- `Table.#grow`: fresh arrays of the new capacity, reinsert every slot that
has a key, recounting.  (The `keys === null` early return in the source is
dead code: both fields are initialized to `[]`.) -/
def Table.grow {α : Type} (t : Table α) (capacity : Nat) : Option (Table α) :=
  let res := (List.range t.capacity).foldl (growStep t (capacity - 1))
    (some (Array.mkArray capacity none, Array.mkArray capacity none, 0))
  res.map fun r => ⟨r.2.2, capacity, r.1, r.2.1⟩

/-- `Table.set`.  The load-factor test `count + 1 > capacity * 0.75` is exact
float arithmetic because capacity is always 0 or a power of two ≥ 8; it is
the rational comparison written here over Nat. -/
def Table.set {α : Type} (t : Table α) (key : LoxStr) (value : α) :
    Option (Bool × Table α) :=
  let grown : Option (Table α) :=
    if 4 * (t.count + 1) > 3 * t.capacity then
      t.grow (if t.capacity < 8 then 8 else t.capacity * 2)
    else some t
  match grown with
  | none => none
  | some t1 =>
    match tfind t1.keys t1.values (t1.capacity - 1) key with
    | none => none
    | some index =>
      let isNewKey := (t1.keys.getD index none).isNone
      let t2 :=
        if isNewKey then
          { t1 with keys := t1.keys.setD index (some key),
                    count := t1.count +
                      (if (t1.values.getD index none).isNone then 1 else 0) }
        else t1
      some (isNewKey, { t2 with values := t2.values.setD index (some value) })

/-- `Table.delete`: tombstone the key (remove the key, keep the value). -/
def Table.delete {α : Type} (t : Table α) (key : LoxStr) : Option (Bool × Table α) :=
  if t.count = 0 then some (false, t)
  else
    match tfind t.keys t.values (t.capacity - 1) key with
    | none => none
    | some index =>
      if (t.keys.getD index none).isNone then some (false, t)
      else some (true, { t with keys := t.keys.setD index none })

/-- `Table.get`: `some none` = key absent (JS returns undefined), `some
(some v)` = present with value v, `none` = the probe loop hung. -/
def Table.get {α : Type} (t : Table α) (key : LoxStr) : Option (Option α) :=
  if t.count = 0 then some none
  else
    match tfind t.keys t.values (t.capacity - 1) key with
    | none => none
    | some index =>
      if (t.keys.getD index none).isNone then some none
      else some (t.values.getD index none)

/-- Result of `Table.findString`: a matching interned string, definitely
absent, or the `throw new Error("wtf!?")` reached after scanning `capacity`
slots without an answer. -/
inductive FSResult where
  | found (key : LoxStr)
  | absent
  | wtf
deriving DecidableEq, Repr

/-- The bounded `for (let i = 0; i < capacity; i++)` loop of findString; the
second Nat is the number of remaining iterations. -/
def fsLoop {α : Type} (t : Table α) (chars : String) (hash : Int) :
    Nat → Nat → FSResult
  | _, 0 => .wtf
  | index, i+1 =>
    match t.keys.getD index none with
    | none =>
      if (t.values.getD index none).isNone then .absent
      else fsLoop t chars hash ((index+1) &&& (t.capacity-1)) i
    | some key =>
      if key.hash = hash ∧ key.chars = chars then .found key
      else fsLoop t chars hash ((index+1) &&& (t.capacity-1)) i

/-- `Table.findString`. -/
def Table.findString {α : Type} (t : Table α) (chars : String) (hash : Int) : FSResult :=
  if t.count = 0 then .absent
  else fsLoop t chars hash (probeStart hash (t.capacity - 1)) t.capacity

/-- `Table.entries` as a list in slot order. -/
def Table.entriesList {α : Type} (t : Table α) : List (LoxStr × Option α) :=
  (List.range t.capacity).filterMap fun i =>
    match t.keys.getD i none with
    | none => none
    | some k => some (k, t.values.getD i none)

/-- One entry of `addAll`'s loop body: `this.set(key, value)`.  A `none`
value in an entry would be a corrupt source table (a key whose slot holds
no value), which the invariants below rule out. -/
def addAllStep {α : Type} (acc : Option (Table α)) (kv : LoxStr × Option α) :
    Option (Table α) :=
  match acc with
  | none => none
  | some t1 =>
    match kv.2 with
    | none => none
    | some v => (t1.set kv.1 v).map Prod.snd

/-- `Table.addAll`: set every entry of `other` into `t`. -/
def Table.addAll {α : Type} (t other : Table α) : Option (Table α) :=
  other.entriesList.foldl addAllStep (some t)

/-! ## The value model (src/lox2/main.ts object classes)

Lox values: nil, booleans, numbers (abstracted to Int, see the header), and
references to heap objects.  Structural equality of `Value` models JS `===`
(reference equality of objects, value equality of numbers/booleans/nil). -/

inductive Value where
  | nil
  | bool (b : Bool)
  | num (n : Int)
  | str (s : LoxStr)
  | funcRef (i : Nat)
  | closureRef (i : Nat)
  | upvalRef (i : Nat)
  | classRef (i : Nat)
  | instRef (i : Nat)
  | boundRef (i : Nat)
  | nativeRef (i : Nat)
deriving DecidableEq, Repr

/-- JS truthiness of a `Value | undefined` expression, as used by the
source's `if (value)` tests: undefined, null, false and 0 are falsy (NaN,
-0 and the empty JS string never occur as Lox values here: Lox strings are
LoxString objects and are always truthy). -/
def jsTruthy : Option Value → Bool
  | none => false
  | some .nil => false
  | some (.bool false) => false
  | some (.num 0) => false
  | some _ => true

/-- `VM.isFalsey`: `value === null || value === false`.  Extended to
`undefined` (which is neither) for stack reads past the top. -/
def isFalsey : Option Value → Bool
  | some .nil => true
  | some (.bool false) => true
  | _ => false

/-- `valueType` from the source: the typeof-based tag used in the ADD error
message. -/
def valueTypeStr : Option Value → String
  | none => "undefined"
  | some .nil => "nil"
  | some (.bool _) => "boolean"
  | some (.num _) => "number"
  | some _ => "object"

/-! ## The string pool (src/lox2/main.ts) -/

/-- The interning pool: its table (which stores `null` for every key) and
the next allocation id (modelling the identity of the next `new
LoxString`). -/
structure Pool where
  strings : Table Value
  nextId : Nat
deriving DecidableEq

def Pool.empty : Pool := ⟨Table.empty, 0⟩

/-- `Pool.intern`: find by characters and hash; on a miss allocate a fresh
LoxString and insert it.  `none` models the pool table's probe loop hanging
or `findString` throwing, neither of which happens on well-formed pools. -/
def Pool.intern (p : Pool) (name : String) : Option (LoxStr × Pool) :=
  let hash := hashString name
  match p.strings.findString name hash with
  | .found key => some (key, p)
  | .absent =>
    let key : LoxStr := ⟨p.nextId, name, hash⟩
    (p.strings.set key Value.nil).map fun r =>
      (key, { strings := r.2, nextId := p.nextId + 1 })
  | .wtf => none

/-! ## Heap objects and VM state (src/lox2/vm.ts) -/

structure ChunkData where
  code : Array Nat
  lines : Array Nat
  constants : Array Value
deriving Repr, DecidableEq

structure FuncData where
  arity : Nat
  upvalueCount : Nat
  chunk : ChunkData
  name : Option LoxStr
deriving Repr, DecidableEq

structure ClosureData where
  funcId : Nat
  upvalues : Array Nat
deriving DecidableEq, Repr

/-- An upvalue: open when `index ≥ 0` (pointing into the value stack),
closed when `index = -1` (holding `closed`).  The intrusive `next` pointer
of the source's linked list is represented by the position of the upvalue's
id in the VM's `openUps` list. -/
structure UpvalData where
  index : Int
  closed : Value
deriving DecidableEq, Repr

structure ClassData where
  name : LoxStr
  methods : Table Value
deriving Repr

structure InstData where
  klass : Nat
  fields : Table Value
deriving Repr

structure BoundData where
  receiver : Value
  method : Nat
deriving DecidableEq, Repr

/-- The object heap: arenas for each object variant, addressed by the
indices stored in `Value` references. -/
structure Heap where
  funcs : Array FuncData
  closures : Array ClosureData
  upvals : Array UpvalData
  classes : Array ClassData
  insts : Array InstData
  bounds : Array BoundData
  natives : Array (Nat → List Value → Value)

/-- A call frame: the running closure, its instruction pointer, and the
base of its window on the value stack. -/
structure CallFrame where
  closureId : Nat
  ip : Nat
  offset : Nat
deriving DecidableEq, Repr

inductive InterpretResult where
  | ok
  | compileError
  | runtimeError
deriving DecidableEq, Repr

/-- The whole VM state.  `frames` has the top frame at the head (the end of
the JS array).  `localFrame` is the dispatch loop's local variable `frame`:
it aliases the head of `frames` in normal operation, but keeps its value
when `resetStack` empties `frames`, exactly as the JS local does. -/
structure VMState where
  frames : List CallFrame
  localFrame : CallFrame
  stack : Array Value
  globals : Table Value
  pool : Pool
  openUps : List Nat
  heap : Heap
  initString : LoxStr
  errLog : List String
  output : List Value

/-- `resetStack`: clear the value stack, the frame stack and the open
upvalue list. -/
def resetStack (s : VMState) : VMState :=
  { s with stack := #[], frames := [], openUps := [] }

/-- `runtimeError`: log the message (the per-frame trace lines it also
prints carry no state) and reset. -/
def runtimeErrorVM (s : VMState) (message : String) : VMState :=
  resetStack { s with errLog := s.errLog ++ [message] }

/-- `peek(distance)`: `stack[stack.length - 1 - distance]`, `none` when the
read is past the bottom (JS undefined). -/
def peekStk (s : VMState) (distance : Nat) : Option Value :=
  if distance < s.stack.size then s.stack.get? (s.stack.size - 1 - distance) else none

/-- `put(distance, value)`: write `stack[stack.length - 1 - distance]`;
`none` when the slot does not exist. -/
def putStk (s : VMState) (distance : Nat) (value : Value) : Option VMState :=
  if distance < s.stack.size then
    some { s with stack := s.stack.setD (s.stack.size - 1 - distance) value }
  else none

def pushStk (s : VMState) (v : Value) : VMState :=
  { s with stack := s.stack.push v }

/-- `stack.pop()`: the popped value (`none` = undefined on an empty stack)
and the new state. -/
def popStk (s : VMState) : Option Value × VMState :=
  match s.stack.back? with
  | none => (none, s)
  | some v => (some v, { s with stack := s.stack.pop })

/-- Advance the instruction pointer of the running frame.  The JS local
`frame` and the top of the `frames` array are the same object; mutating the
local mutates the array entry whenever it is still in the array. -/
def bumpIp (s : VMState) (n : Nat) : VMState :=
  let lf := { s.localFrame with ip := s.localFrame.ip + n }
  let frames := match s.frames with
    | h :: t => if h = s.localFrame then lf :: t else s.frames
    | [] => []
  { s with localFrame := lf, frames := frames }

/-- The function of the running frame's closure. -/
def frameFunc (s : VMState) : Option FuncData := do
  let c ← s.heap.closures.get? s.localFrame.closureId
  s.heap.funcs.get? c.funcId

/-! ### Upvalue capture and closing (VM.captureUpvalue / VM.closeUpvalues)

The intrusive singly-linked `openUpvalues` list is represented as the list
of upvalue heap ids, head first; walking `next` pointers is walking the
list. -/

/-- `captureUpvalue`: walk the open list while its index is greater than
the target; reuse an upvalue with the target index, otherwise allocate a
fresh one and link it in place.  Returns the new arena, the new open list,
and the id of the captured upvalue. -/
def captureWalk (upvals : Array UpvalData) (index : Int) :
    List Nat → Array UpvalData × List Nat × Nat
  | [] =>
    let id := upvals.size
    (upvals.push ⟨index, .nil⟩, [id], id)
  | u :: rest =>
    let ui := (upvals.getD u ⟨-1, .nil⟩).index
    if ui > index then
      let r := captureWalk upvals index rest
      (r.1, u :: r.2.1, r.2.2)
    else if ui = index then (upvals, u :: rest, u)
    else
      let id := upvals.size
      (upvals.push ⟨index, .nil⟩, id :: u :: rest, id)

def captureUpvalue (s : VMState) (index : Int) : VMState × Nat :=
  let r := captureWalk s.heap.upvals index s.openUps
  ({ s with heap := { s.heap with upvals := r.1 }, openUps := r.2.1 }, r.2.2)

/-- `closeUpvalues(last)`: while the head of the open list has index ≥
last, copy its stack slot into `closed`, mark it closed (index -1) and
unlink it. -/
def closeWalk (stack : Array Value) (last : Int) :
    Array UpvalData → List Nat → Array UpvalData × List Nat
  | upvals, [] => (upvals, [])
  | upvals, u :: rest =>
    let uv := upvals.getD u ⟨-1, .nil⟩
    if uv.index ≥ last then
      closeWalk stack last (upvals.setD u ⟨-1, stack.getD uv.index.toNat .nil⟩) rest
    else (upvals, u :: rest)

def closeUpvalues (s : VMState) (last : Int) : VMState :=
  let r := closeWalk s.stack last s.heap.upvals s.openUps
  { s with heap := { s.heap with upvals := r.1 }, openUps := r.2 }

/-! ### Call dispatch (VM.call / VM.callValue and friends) -/

/-- `VM.call(closure, argCount)`: arity check, 64-frame check, push a
frame.  The outer `none` models a dangling closure reference (a JS crash),
which never occurs in the states the theorems visit. -/
def callClosure (s : VMState) (closureId argCount : Nat) : Option (Bool × VMState) := do
  let c ← s.heap.closures.get? closureId
  let f ← s.heap.funcs.get? c.funcId
  if argCount ≠ f.arity then
    return (false, runtimeErrorVM s
      ("Expected " ++ toString f.arity ++ " arguments but got " ++ toString argCount ++ "."))
  else if s.frames.length = 64 then
    return (false, runtimeErrorVM s "Stack overflow.")
  else
    let frame : CallFrame := ⟨closureId, 0, s.stack.size - argCount - 1⟩
    return (true, { s with frames := frame :: s.frames, localFrame := s.localFrame })

/-- `bindMethod(klass, name)`: look the method up (a truthiness test in the
source), pop the receiver, push a fresh BoundMethod. -/
def bindMethod (s : VMState) (classId : Nat) (name : LoxStr) : Option (Bool × VMState) := do
  let k ← s.heap.classes.get? classId
  let method ← k.methods.get name
  if ¬ jsTruthy method then
    return (false, runtimeErrorVM s ("Undefined property '" ++ name.chars ++ "'."))
  else
    match method with
    | some (.closureRef m) =>
      let (receiver?, s1) := popStk s
      let receiver ← receiver?
      let id := s1.heap.bounds.size
      return (true, pushStk
        { s1 with heap := { s1.heap with bounds := s1.heap.bounds.push ⟨receiver, m⟩ } }
        (.boundRef id))
    | _ => none

/-- `invokeFromClass`: truthiness-test the method, then call it. -/
def invokeFromClass (s : VMState) (classId : Nat) (name : LoxStr) (argCount : Nat) :
    Option (Bool × VMState) := do
  let k ← s.heap.classes.get? classId
  let method ← k.methods.get name
  if ¬ jsTruthy method then
    return (false, runtimeErrorVM s ("Undefined property '" ++ name.chars ++ "'."))
  else
    match method with
    | some (.closureRef m) => callClosure s m argCount
    | _ => none

/-- `VM.callValue`, dispatching on the callee's object variant.  In the
Native case the source pops only the `argCount` arguments
(`this.stack.length -= argCount`) before pushing the result — the callee
stays on the stack. -/
def callValue (s : VMState) (callee : Option Value) (argCount : Nat) :
    Option (Bool × VMState) :=
  match callee with
  | some (.boundRef i) => do
    let b ← s.heap.bounds.get? i
    let s1 ← putStk s argCount b.receiver
    callClosure s1 b.method argCount
  | some (.classRef i) => do
    let k ← s.heap.classes.get? i
    let instId := s.heap.insts.size
    let s1 ← putStk
      { s with heap := { s.heap with insts := s.heap.insts.push ⟨i, Table.empty⟩ } }
      argCount (.instRef instId)
    let initializer ← k.methods.get s1.initString
    if jsTruthy initializer then
      match initializer with
      | some (.closureRef m) => callClosure s1 m argCount
      | _ => none
    else if argCount ≠ 0 then
      return (false, runtimeErrorVM s1
        ("Expected 0 arguments but got " ++ toString argCount ++ "."))
    else
      return (true, s1)
  | some (.closureRef i) => callClosure s i argCount
  | some (.nativeRef i) => do
    let f ← s.heap.natives.get? i
    let args := s.stack.toList.drop (s.stack.size - argCount)
    let result := f argCount args
    let s1 := { s with stack := s.stack.extract 0 (s.stack.size - argCount) }
    return (true, pushStk s1 result)
  | _ => some (false, runtimeErrorVM s "Can only call functions and classes.")

/-- `VM.invoke(name, argCount)`: receiver must be an instance; a truthy
field shadows a method (`if (value)` in the source); otherwise dispatch
through the class. -/
def invoke (s : VMState) (name : LoxStr) (argCount : Nat) : Option (Bool × VMState) :=
  match peekStk s argCount with
  | some (.instRef i) => do
    let inst ← s.heap.insts.get? i
    let value ← inst.fields.get name
    if jsTruthy value then
      match value with
      | some v => do
        let s1 ← putStk s argCount v
        callValue s1 (some v) argCount
      | none => none
    else
      invokeFromClass s inst.klass name argCount
  | _ => some (false, runtimeErrorVM s "Only instances have methods.")

/-- `VM.binaryOp(op)`: pop b, pop a; if either is not a number, report and
return RUNTIME_ERROR, else push `op(a, b)`.  The returned result is what
the source's callers discard. -/
def binaryOp (s : VMState) (op : Int → Int → Value) : VMState × Option InterpretResult :=
  let (b, s1) := popStk s
  let (a, s2) := popStk s1
  match a, b with
  | some (.num x), some (.num y) => (pushStk s2 (op x y), none)
  | _, _ => (runtimeErrorVM s2 "Operands must be numbers.", some .runtimeError)

/-! ## The dispatch loop (VM.run) -/

/-- The opcode enum of src/lox2/main.ts, in declaration order (byte values
0..36). -/
inductive OpCode where
  | CONSTANT | NIL | TRUE | FALSE | POP
  | GET_LOCAL | GET_GLOBAL | DEFINE_GLOBAL | SET_LOCAL | SET_GLOBAL
  | GET_UPVALUE | SET_UPVALUE | GET_PROPERTY | SET_PROPERTY | GET_SUPER
  | EQUAL | GREATER | LESS | ADD | SUBTRACT | MULTIPLY | DIVIDE
  | NOT | NEGATE | PRINT | JUMP | JUMP_IF_FALSE | LOOP
  | CALL | INVOKE | SUPER_INVOKE | CLOSURE | CLOSE_UPVALUE | RETURN
  | CLASS | INHERIT | METHOD
deriving DecidableEq, Repr

def decodeOp : Nat → Option OpCode
  | 0 => some .CONSTANT
  | 1 => some .NIL
  | 2 => some .TRUE
  | 3 => some .FALSE
  | 4 => some .POP
  | 5 => some .GET_LOCAL
  | 6 => some .GET_GLOBAL
  | 7 => some .DEFINE_GLOBAL
  | 8 => some .SET_LOCAL
  | 9 => some .SET_GLOBAL
  | 10 => some .GET_UPVALUE
  | 11 => some .SET_UPVALUE
  | 12 => some .GET_PROPERTY
  | 13 => some .SET_PROPERTY
  | 14 => some .GET_SUPER
  | 15 => some .EQUAL
  | 16 => some .GREATER
  | 17 => some .LESS
  | 18 => some .ADD
  | 19 => some .SUBTRACT
  | 20 => some .MULTIPLY
  | 21 => some .DIVIDE
  | 22 => some .NOT
  | 23 => some .NEGATE
  | 24 => some .PRINT
  | 25 => some .JUMP
  | 26 => some .JUMP_IF_FALSE
  | 27 => some .LOOP
  | 28 => some .CALL
  | 29 => some .INVOKE
  | 30 => some .SUPER_INVOKE
  | 31 => some .CLOSURE
  | 32 => some .CLOSE_UPVALUE
  | 33 => some .RETURN
  | 34 => some .CLASS
  | 35 => some .INHERIT
  | 36 => some .METHOD
  | _ => none

/-- Set the running frame's instruction pointer, mirroring the JS aliasing
between the dispatch loop's local `frame` and the top of the frame array. -/
def withIp (s : VMState) (newIp : Nat) : VMState :=
  let lf := { s.localFrame with ip := newIp }
  let frames := match s.frames with
    | h :: t => if h = s.localFrame then lf :: t else s.frames
    | [] => []
  { s with localFrame := lf, frames := frames }

/-- `readByte()`: the byte at ip (undefined past the end of the code array)
and the state with ip advanced. -/
def readByteOp (s : VMState) (f : FuncData) : Option Nat × VMState :=
  (f.chunk.code.get? s.localFrame.ip, withIp s (s.localFrame.ip + 1))

/-- `readShort()`: two bytes, big-endian. -/
def readShortOp (s : VMState) (f : FuncData) : Option Nat × VMState :=
  let (b1, s1) := readByteOp s f
  let (b2, s2) := readByteOp s1 f
  (match b1, b2 with
   | some x, some y => some ((x <<< 8) ||| y)
   | _, _ => none, s2)

/-- `readConstant()`. -/
def readConstantOp (s : VMState) (f : FuncData) : Option Value × VMState :=
  let (b, s1) := readByteOp s f
  match b with
  | none => (none, s1)
  | some i => (f.chunk.constants.get? i, s1)

/-- `readString()`: readConstant cast to LoxString (`none` if the constant
is not a string — the JS cast would let a non-string flow on, which never
happens for compiler-produced chunks). -/
def readStringOp (s : VMState) (f : FuncData) : Option LoxStr × VMState :=
  match readConstantOp s f with
  | (some (.str t), s1) => (some t, s1)
  | (_, s1) => (none, s1)

/-- One step of the dispatch loop either continues with a new state, leaves
`run()` with an InterpretResult, or is stuck: the JS would throw (e.g. the
RangeError of `frames.length--` on an empty array) or dereference a value
outside the modelled well-formed states. -/
inductive Step where
  | cont (s : VMState)
  | halt (r : InterpretResult) (s : VMState)
  | stuck (s : VMState)

/-- The capture loop of the CLOSURE opcode: `upvalueCount` operand pairs
`(isLocal, index)`, appending to the new closure's upvalue array. -/
def closureCapture (f : FuncData) (cid : Nat) (s : VMState) : Nat → Step
  | 0 => .cont s
  | n+1 =>
    let (b1, s1) := readByteOp s f
    let (b2, s2) := readByteOp s1 f
    match b1, b2 with
    | some isLocal, some index =>
      let uid? : Option (VMState × Nat) :=
        if isLocal ≠ 0 then
          some (captureUpvalue s2 ((s2.localFrame.offset + index : Nat) : Int))
        else
          match s2.heap.closures.get? s2.localFrame.closureId with
          | none => none
          | some cur =>
            match cur.upvalues.get? index with
            | none => none
            | some uid => some (s2, uid)
      match uid? with
      | none => .stuck s2
      | some (s3, uid) =>
        match s3.heap.closures.get? cid with
        | none => .stuck s3
        | some c =>
          let cs := s3.heap.closures.setD cid ({ c with upvalues := c.upvalues.push uid })
          closureCapture f cid { s3 with heap := { s3.heap with closures := cs } } n
    | _, _ => .stuck s2

/-- The body of one `switch` dispatch, with the opcode byte already
consumed. -/
def execOp (s : VMState) (f : FuncData) : OpCode → Step
  | .CONSTANT =>
    match readConstantOp s f with
    | (some v, s1) => .cont (pushStk s1 v)
    | (none, s1) => .stuck s1
  | .NIL => .cont (pushStk s .nil)
  | .TRUE => .cont (pushStk s (.bool true))
  | .FALSE => .cont (pushStk s (.bool false))
  | .POP => .cont (popStk s).2
  | .GET_LOCAL =>
    match readByteOp s f with
    | (none, s1) => .stuck s1
    | (some slot, s1) =>
      match s1.stack.get? (s1.localFrame.offset + slot) with
      | some v => .cont (pushStk s1 v)
      | none => .stuck s1
  | .GET_GLOBAL =>
    match readStringOp s f with
    | (none, s1) => .stuck s1
    | (some name, s1) =>
      match s1.globals.get name with
      | none => .stuck s1
      | some none =>
        .halt .runtimeError
          (runtimeErrorVM s1 ("Undefined global '" ++ name.chars ++ "'."))
      | some (some v) => .cont (pushStk s1 v)
  | .DEFINE_GLOBAL =>
    match readStringOp s f with
    | (none, s1) => .stuck s1
    | (some name, s1) =>
      let (v, s2) := popStk s1
      match v with
      | none => .stuck s2
      | some v =>
        match s2.globals.set name v with
        | none => .stuck s2
        | some r => .cont { s2 with globals := r.2 }
  | .SET_LOCAL =>
    match readByteOp s f with
    | (none, s1) => .stuck s1
    | (some slot, s1) =>
      match peekStk s1 0 with
      | none => .stuck s1
      | some v => .cont { s1 with stack := s1.stack.setD (s1.localFrame.offset + slot) v }
  | .SET_GLOBAL =>
    match readStringOp s f with
    | (none, s1) => .stuck s1
    | (some name, s1) =>
      match peekStk s1 0 with
      | none => .stuck s1
      | some v =>
        match s1.globals.set name v with
        | none => .stuck s1
        | some (isNewKey, g1) =>
          if isNewKey then
            match g1.delete name with
            | none => .stuck s1
            | some r =>
              .halt .runtimeError
                (runtimeErrorVM { s1 with globals := r.2 }
                  ("Undefined global '" ++ name.chars ++ "'."))
          else .cont { s1 with globals := g1 }
  | .GET_UPVALUE =>
    match readByteOp s f with
    | (none, s1) => .stuck s1
    | (some slot, s1) =>
      match s1.heap.closures.get? s1.localFrame.closureId with
      | none => .stuck s1
      | some cur =>
        match cur.upvalues.get? slot with
        | none => .stuck s1
        | some uid =>
          match s1.heap.upvals.get? uid with
          | none => .stuck s1
          | some uv =>
            if uv.index < 0 then .cont (pushStk s1 uv.closed)
            else
              match s1.stack.get? uv.index.toNat with
              | some v => .cont (pushStk s1 v)
              | none => .stuck s1
  | .SET_UPVALUE =>
    match readByteOp s f with
    | (none, s1) => .stuck s1
    | (some slot, s1) =>
      match s1.heap.closures.get? s1.localFrame.closureId with
      | none => .stuck s1
      | some cur =>
        match cur.upvalues.get? slot with
        | none => .stuck s1
        | some uid =>
          match s1.heap.upvals.get? uid with
          | none => .stuck s1
          | some uv =>
            match peekStk s1 0 with
            | none => .stuck s1
            | some v =>
              if uv.index < 0 then
                let us := s1.heap.upvals.setD uid ({ uv with closed := v })
                .cont { s1 with heap := { s1.heap with upvals := us } }
              else .cont { s1 with stack := s1.stack.setD uv.index.toNat v }
  | .GET_PROPERTY =>
    match peekStk s 0 with
    | some (.instRef i) =>
      match readStringOp s f with
      | (none, s1) => .stuck s1
      | (some name, s1) =>
        match s1.heap.insts.get? i with
        | none => .stuck s1
        | some inst =>
          match inst.fields.get name with
          | none => .stuck s1
          | some value =>
            if jsTruthy value then
              match value with
              | some v => .cont (pushStk (popStk s1).2 v)
              | none => .stuck s1
            else
              match bindMethod s1 inst.klass name with
              | none => .stuck s1
              | some (true, s2) => .cont s2
              | some (false, s2) => .halt .runtimeError s2
    | _ => .halt .runtimeError (runtimeErrorVM s "Only instances have properties.")
  | .SET_PROPERTY =>
    match peekStk s 1 with
    | some (.instRef i) =>
      match readStringOp s f with
      | (none, s1) => .stuck s1
      | (some name, s1) =>
        match s1.heap.insts.get? i with
        | none => .stuck s1
        | some inst =>
          match peekStk s1 0 with
          | none => .stuck s1
          | some v =>
            match inst.fields.set name v with
            | none => .stuck s1
            | some r =>
              let is2 := s1.heap.insts.setD i ({ inst with fields := r.2 })
              let s2 := { s1 with heap := { s1.heap with insts := is2 } }
              let (value, s3) := popStk s2
              match value with
              | none => .stuck s3
              | some value => .cont (pushStk (popStk s3).2 value)
    | _ => .halt .runtimeError (runtimeErrorVM s "Only instances have fields.")
  | .GET_SUPER =>
    match readStringOp s f with
    | (none, s1) => .stuck s1
    | (some name, s1) =>
      let (sc, s2) := popStk s1
      match sc with
      | some (.classRef i) =>
        match bindMethod s2 i name with
        | none => .stuck s2
        | some (true, s3) => .cont s3
        | some (false, s3) => .halt .runtimeError s3
      | _ => .stuck s2
  | .EQUAL =>
    let (b, s1) := popStk s
    let (a, s2) := popStk s1
    .cont (pushStk s2 (.bool (a = b)))
  | .GREATER => .cont (binaryOp s (fun a b => .bool (decide (a > b)))).1
  | .LESS => .cont (binaryOp s (fun a b => .bool (decide (a < b)))).1
  | .ADD =>
    match peekStk s 0, peekStk s 1 with
    | some (.str _), some (.str _) =>
      let (b, s1) := popStk s
      let (a, s2) := popStk s1
      match a, b with
      | some (.str x), some (.str y) =>
        match s2.pool.intern (x.chars ++ y.chars) with
        | none => .stuck s2
        | some r => .cont (pushStk { s2 with pool := r.2 } (.str r.1))
      | _, _ => .stuck s2
    | p0, p1 =>
      match p0, p1 with
      | some (.num _), some (.num _) =>
        let (b, s1) := popStk s
        let (a, s2) := popStk s1
        match a, b with
        | some (.num x), some (.num y) => .cont (pushStk s2 (.num (x + y)))
        | _, _ => .stuck s2
      | _, _ =>
        .halt .runtimeError (runtimeErrorVM s
          ("Operands must be two numbers or two strings, where " ++
            valueTypeStr (peekStk s 1) ++ " and " ++ valueTypeStr (peekStk s 0)))
  | .SUBTRACT => .cont (binaryOp s (fun a b => .num (a - b))).1
  | .MULTIPLY => .cont (binaryOp s (fun a b => .num (a * b))).1
  | .DIVIDE => .cont (binaryOp s (fun a b => .num (a / b))).1
  | .NOT =>
    let (v, s1) := popStk s
    .cont (pushStk s1 (.bool (isFalsey v)))
  | .NEGATE =>
    match peekStk s 0 with
    | some (.num _) =>
      let (v, s1) := popStk s
      match v with
      | some (.num x) => .cont (pushStk s1 (.num (-x)))
      | _ => .stuck s1
    | _ => .halt .runtimeError (runtimeErrorVM s "Operand must be a number.")
  | .PRINT =>
    let (v, s1) := popStk s
    match v with
    | none => .stuck s1
    | some v => .cont { s1 with output := s1.output ++ [v] }
  | .JUMP =>
    match readShortOp s f with
    | (none, s1) => .stuck s1
    | (some off, s1) => .cont (withIp s1 (s1.localFrame.ip + off))
  | .JUMP_IF_FALSE =>
    match readShortOp s f with
    | (none, s1) => .stuck s1
    | (some off, s1) =>
      if isFalsey (peekStk s1 0) then .cont (withIp s1 (s1.localFrame.ip + off))
      else .cont s1
  | .LOOP =>
    match readShortOp s f with
    | (none, s1) => .stuck s1
    | (some off, s1) => .cont (withIp s1 (s1.localFrame.ip - off))
  | .CALL =>
    match readByteOp s f with
    | (none, s1) => .stuck s1
    | (some argCount, s1) =>
      match callValue s1 (peekStk s1 argCount) argCount with
      | none => .stuck s1
      | some (false, s2) => .halt .runtimeError s2
      | some (true, s2) =>
        match s2.frames with
        | h :: _ => .cont { s2 with localFrame := h }
        | [] => .stuck s2
  | .INVOKE =>
    match readStringOp s f with
    | (none, s1) => .stuck s1
    | (some name, s1) =>
      match readByteOp s1 f with
      | (none, s2) => .stuck s2
      | (some argCount, s2) =>
        match invoke s2 name argCount with
        | none => .stuck s2
        | some (false, s3) => .halt .runtimeError s3
        | some (true, s3) =>
          match s3.frames with
          | h :: _ => .cont { s3 with localFrame := h }
          | [] => .stuck s3
  | .SUPER_INVOKE =>
    match readStringOp s f with
    | (none, s1) => .stuck s1
    | (some name, s1) =>
      match readByteOp s1 f with
      | (none, s2) => .stuck s2
      | (some argCount, s2) =>
        let (sc, s3) := popStk s2
        match sc with
        | some (.classRef i) =>
          match invokeFromClass s3 i name argCount with
          | none => .stuck s3
          | some (false, s4) => .halt .runtimeError s4
          | some (true, s4) =>
            match s4.frames with
            | h :: _ => .cont { s4 with localFrame := h }
            | [] => .stuck s4
        | _ => .stuck s3
  | .CLOSURE =>
    match readConstantOp s f with
    | (some (.funcRef fid), s1) =>
      match s1.heap.funcs.get? fid with
      | none => .stuck s1
      | some fn =>
        let cid := s1.heap.closures.size
        let s2 := pushStk
          { s1 with heap := { s1.heap with closures := s1.heap.closures.push ⟨fid, #[]⟩ } }
          (.closureRef cid)
        closureCapture f cid s2 fn.upvalueCount
    | (_, s1) => .stuck s1
  | .CLOSE_UPVALUE =>
    let s1 := closeUpvalues s ((s.stack.size : Int) - 1)
    .cont (popStk s1).2
  | .RETURN =>
    let (result, s1) := popStk s
    let s2 := closeUpvalues s1 (s.localFrame.offset : Int)
    match s2.frames with
    | [] => .stuck s2
    | _ :: rest =>
      let s3 := { s2 with frames := rest }
      match rest with
      | [] => .halt .ok (popStk s3).2
      | h :: _ =>
        match result with
        | none => .stuck s3
        | some r =>
          let s4 := { s3 with stack := s3.stack.extract 0 s3.localFrame.offset }
          .cont { pushStk s4 r with localFrame := h }
  | .CLASS =>
    match readStringOp s f with
    | (none, s1) => .stuck s1
    | (some name, s1) =>
      let cid := s1.heap.classes.size
      .cont (pushStk
        { s1 with heap := { s1.heap with classes := s1.heap.classes.push ⟨name, Table.empty⟩ } }
        (.classRef cid))
  | .INHERIT =>
    match peekStk s 1 with
    | some (.classRef sup) =>
      match peekStk s 0 with
      | some (.classRef sub) =>
        match s.heap.classes.get? sup, s.heap.classes.get? sub with
        | some supD, some subD =>
          match subD.methods.addAll supD.methods with
          | none => .stuck s
          | some m =>
            let cs2 := s.heap.classes.setD sub ({ subD with methods := m })
            let s1 := { s with heap := { s.heap with classes := cs2 } }
            .cont (popStk s1).2
        | _, _ => .stuck s
      | _ => .stuck s
    | _ => .halt .runtimeError (runtimeErrorVM s "Superclass must be a class.")
  | .METHOD =>
    match readStringOp s f with
    | (none, s1) => .stuck s1
    | (some name, s1) =>
      match peekStk s1 0, peekStk s1 1 with
      | some method, some (.classRef cid) =>
        match s1.heap.classes.get? cid with
        | none => .stuck s1
        | some k =>
          match k.methods.set name method with
          | none => .stuck s1
          | some r =>
            let cs3 := s1.heap.classes.setD cid ({ k with methods := r.2 })
            let s2 := { s1 with heap := { s1.heap with classes := cs3 } }
            .cont (popStk s2).2
      | _, _ => .stuck s1

/-- One iteration of the `for(;;)` dispatch loop: fetch the byte at ip
(undefined past the end leaves the switch silently and loops), decode,
execute.  An unknown byte matches no case and also just continues. -/
def step (s : VMState) : Step :=
  match frameFunc s with
  | none => .stuck s
  | some f =>
    let b := f.chunk.code.get? s.localFrame.ip
    let s1 := withIp s (s.localFrame.ip + 1)
    match b with
    | none => .cont s1
    | some byte =>
      match decodeOp byte with
      | none => .cont s1
      | some op => execOp s1 f op

/-- The observable outcome of running the dispatch loop with the given
fuel. -/
inductive RunOutcome where
  | halted (r : InterpretResult)
  | stuck
  | fuelOut
deriving DecidableEq, Repr

def runFuel (s : VMState) : Nat → RunOutcome
  | 0 => .fuelOut
  | n+1 =>
    match step s with
    | .cont s1 => runFuel s1 n
    | .halt r _ => .halted r
    | .stuck _ => .stuck

/-- The state after exactly n continuing steps (none if the loop leaves or
gets stuck earlier). -/
def stepN (s : VMState) : Nat → Option VMState
  | 0 => some s
  | n+1 =>
    match step s with
    | .cont s1 => stepN s1 n
    | _ => none

/-- The InterpretResult a step leaves `run()` with, if any. -/
def Step.resultOf : Step → Option InterpretResult
  | .halt r _ => some r
  | _ => none

/-- The state carried by a step result. -/
def Step.stateOf : Step → VMState
  | .cont s => s
  | .halt _ s => s
  | .stuck s => s

def Step.isCont : Step → Bool
  | .cont _ => true
  | _ => false

/-! ## Table well-formedness

The invariant satisfied by every table the program builds, from which the
termination of the probe loops follows (claim C10) and on which the other
table claims rest. -/

/-- The key stored at slot i (JS `keys[i]`). -/
def keyAt {α : Type} (t : Table α) (i : Nat) : Option LoxStr := t.keys.getD i none

/-- The value stored at slot i (JS `values[i]`). -/
def valAt {α : Type} (t : Table α) (i : Nat) : Option α := t.values.getD i none

/-- A slot that holds neither key nor value: the probe loops stop here. -/
def slotFree {α : Type} (t : Table α) (i : Nat) : Prop :=
  (keyAt t i).isNone ∧ (valAt t i).isNone

/-- The i-th slot of the probe sequence that starts at `start`. -/
def probeAt (cap start d : Nat) : Nat := (start + d) % cap

/-- The number of slots holding a defined value (live entries plus
tombstones). -/
def numDefined {α : Type} (t : Table α) : Nat :=
  ((List.range t.capacity).filter (fun i => (valAt t i).isSome)).length

/-- The start of the probe sequence for a hash in this table. -/
def startIdxOf {α : Type} (t : Table α) (h : Int) : Nat := probeStart h (t.capacity - 1)

/-- The key is stored somewhere in the table. -/
def HasKeyT {α : Type} (t : Table α) (k : LoxStr) : Prop :=
  ∃ i < t.capacity, keyAt t i = some k

/-- Slot i, holding key k, is reachable by probing for k: no free slot
strictly before it on k's probe sequence. -/
def ReachSlot {α : Type} (t : Table α) (k : LoxStr) (i : Nat) : Prop :=
  ∃ d < t.capacity, i = probeAt t.capacity (startIdxOf t k.hash) d ∧
    ∀ j < d, ¬ slotFree t (probeAt t.capacity (startIdxOf t k.hash) j)

/-- Table well-formedness: backing arrays of size `capacity`; the capacity
is 0 or a power of two ≥ 8; `count` equals the number of defined values and
respects the 0.75 load bound; a stored key always has a stored value; keys
are pairwise distinct objects; every stored key is probe-reachable. -/
structure TWF {α : Type} (t : Table α) : Prop where
  ksize : t.keys.size = t.capacity
  vsize : t.values.size = t.capacity
  capPow : t.capacity = 0 ∨ ∃ m ≤ t.capacity, 3 ≤ m ∧ t.capacity = 2^m
  load : 4 * t.count ≤ 3 * t.capacity
  countDef : t.count = numDefined t
  keyVal : ∀ i < t.capacity, (keyAt t i).isSome → (valAt t i).isSome
  nodup : ∀ i < t.capacity, ∀ j < t.capacity, ∀ k,
    keyAt t i = some k → keyAt t j = some k → i = j
  reach : ∀ i < t.capacity, ∀ k, keyAt t i = some k → ReachSlot t k i

/-- The invariant of grow's reinsertion fold after processing the first n
old slots: sizes, counters, key/value correspondence, provenance and
completeness of keys, no duplicates, and probe reachability in the new
arrays. -/
def GrowInv {α : Type} (t : Table α) (capNew n : Nat)
    (g : Array (Option LoxStr) × Array (Option α) × Nat) : Prop :=
  g.1.size = capNew ∧ g.2.1.size = capNew ∧
  g.2.2 = (List.range n).countP (fun i => (keyAt t i).isSome) ∧
  (∀ x, x < capNew → ((g.1.getD x none).isNone ↔ (g.2.1.getD x none).isNone)) ∧
  g.2.2 = (List.range capNew).countP (fun x => (g.2.1.getD x none).isSome) ∧
  (∀ x, x < capNew → ∀ k1, g.1.getD x none = some k1 → ∃ i, i < n ∧ keyAt t i = some k1) ∧
  (∀ i, i < n → ∀ k1, keyAt t i = some k1 → ∃ x, x < capNew ∧ g.1.getD x none = some k1) ∧
  (∀ x1, x1 < capNew → ∀ x2, x2 < capNew → ∀ k1,
    g.1.getD x1 none = some k1 → g.1.getD x2 none = some k1 → x1 = x2) ∧
  (∀ x, x < capNew → ∀ k1, g.1.getD x none = some k1 →
    ∃ d, d < capNew ∧ x = (probeStart k1.hash (capNew - 1) + d) % capNew ∧
      ∀ j, j < d →
        ¬ ((g.1.getD ((probeStart k1.hash (capNew - 1) + j) % capNew) none).isNone ∧
          (g.2.1.getD ((probeStart k1.hash (capNew - 1) + j) % capNew) none).isNone))

/-- Tables reachable from `new Table()` by the operations the program
performs on them. -/
inductive TReach {α : Type} : Table α → Prop where
  | init : TReach Table.empty
  | set (t : Table α) (k : LoxStr) (v : α) (r : Bool × Table α) :
      TReach t → t.set k v = some r → TReach r.2
  | del (t : Table α) (k : LoxStr) (r : Bool × Table α) :
      TReach t → t.delete k = some r → TReach r.2
  | addAll (t other : Table α) (r : Table α) :
      TReach t → TReach other → t.addAll other = some r → TReach r

/-! ## Pool well-formedness (claim C6) -/

/-- The string s is interned in the pool. -/
def PoolHas (p : Pool) (s : LoxStr) : Prop := HasKeyT p.strings s

/-- Pool well-formedness: the pool table is well formed, every interned
string's hash field is the hash of its characters, no two interned strings
share characters, and ids are below the allocation counter (so a fresh id
is distinct from every interned string). -/
structure PoolWF (p : Pool) : Prop where
  twf : TWF p.strings
  hashOk : ∀ i < p.strings.capacity, ∀ k, keyAt p.strings i = some k →
    k.hash = hashString k.chars
  uniqChars : ∀ i < p.strings.capacity, ∀ j < p.strings.capacity, ∀ k k1,
    keyAt p.strings i = some k → keyAt p.strings j = some k1 →
    k.chars = k1.chars → k = k1
  idFresh : ∀ i < p.strings.capacity, ∀ k, keyAt p.strings i = some k →
    k.id < p.nextId

/-! ## Open-upvalue list invariant (claim C7)

In vm.ts the fields `openUpvalues` and `Upvalue.index` are mutated only by
`captureUpvalue`, `closeUpvalues` and `resetStack`; `Upvalue.closed` is also
written by SET_UPVALUE on an already-closed upvalue.  The machine below has
exactly these transitions, over the (upvalue arena, open list) component of
the VM state. -/

/-- The stack index of an upvalue id (as `closeUpvalues` and
`captureUpvalue` read it). -/
def upIndex (upvals : Array UpvalData) (u : Nat) : Int :=
  (upvals.getD u ⟨-1, .nil⟩).index

/-- The open-upvalue invariant: the list is strictly descending in stack
index (hence no two open upvalues share an index), every listed upvalue is
open (index ≥ 0) and its id is a live arena index. -/
def OpenInv (upvals : Array UpvalData) (openUps : List Nat) : Prop :=
  openUps.Chain' (fun a b => upIndex upvals b < upIndex upvals a) ∧
  ∀ u ∈ openUps, 0 ≤ upIndex upvals u ∧ u < upvals.size

/-- (arena, open list) pairs reachable by the VM's upvalue operations.
`capture` is invoked by the CLOSURE opcode with index `frame.offset +
operand`, a natural number; `close` with the current stack and any cutoff;
`writeClosed` is SET_UPVALUE's write to the `closed` field of a closed
upvalue; `reset` is resetStack. -/
inductive UpReach : Array UpvalData → List Nat → Prop where
  | init : UpReach #[] []
  | capture (upvals : Array UpvalData) (openUps : List Nat) (index : Nat) :
      UpReach upvals openUps →
      UpReach (captureWalk upvals index openUps).1 (captureWalk upvals index openUps).2.1
  | close (upvals : Array UpvalData) (openUps : List Nat) (stack : Array Value) (last : Int) :
      UpReach upvals openUps →
      UpReach (closeWalk stack last upvals openUps).1 (closeWalk stack last upvals openUps).2
  | writeClosed (upvals : Array UpvalData) (openUps : List Nat) (u : Nat) (v : Value) :
      UpReach upvals openUps → upIndex upvals u < 0 →
      UpReach (upvals.setD u ⟨(upvals.getD u ⟨-1, .nil⟩).index, v⟩) openUps
  | reset (upvals : Array UpvalData) (openUps : List Nat) :
      UpReach upvals openUps → UpReach upvals []

/-! ## Frame-count machine (claim C8)

In vm.ts the frame array is mutated only by `VM.call` (push, guarded by the
arity and 64-frame checks, with `runtimeError` resetting the array on
either failure), the RETURN opcode (`frames.length--`) and `resetStack`. -/

inductive FrameCount : Nat → Prop where
  | init : FrameCount 0
  | push (n : Nat) : FrameCount n → n ≠ 64 → FrameCount (n+1)
  | pop (n : Nat) : FrameCount (n+1) → FrameCount n
  | reset (n : Nat) : FrameCount n → FrameCount 0

/-! ## Concrete states for the claims over the dispatch loop -/

/-- A fresh single-frame VM as `interpret` builds it: the compiled script
function wrapped in a closure, pushed, and called with 0 arguments. -/
def mkState (chunk : ChunkData) : VMState :=
  let f : FuncData := ⟨0, 0, chunk, none⟩
  let frame : CallFrame := ⟨0, 0, 0⟩
  { frames := [frame], localFrame := frame,
    stack := #[.closureRef 0],
    globals := Table.empty, pool := Pool.empty,
    openUps := [], heap := ⟨#[f], #[⟨0, #[]⟩], #[], #[], #[], #[], #[]⟩,
    initString := ⟨0, "init", hashString "init"⟩,
    errLog := [], output := [] }

/-- The interned name "p" used by the C1 scenario. -/
def strP : LoxStr := ⟨101, "p", hashString "p"⟩

/-- The class name "C" used by the C1 scenario. -/
def strC : LoxStr := ⟨102, "C", hashString "C"⟩

/-- A field table mapping "p" to nil (built with Table.set, as
`this.f = nil;` would). -/
def c1Fields : Table Value := ((Table.empty.set strP .nil).map Prod.snd).getD Table.empty

/-- C1 scenario: the top of the stack is an instance of a method-less class
whose field table maps "p" to nil; the next opcode is GET_PROPERTY "p". -/
def c1Init : VMState :=
  let s := mkState ⟨#[12, 0, 4, 1, 33], #[1, 1, 1, 1, 1], #[.str strP]⟩
  pushStk
    { s with heap := { s.heap with
        classes := #[⟨strC, Table.empty⟩], insts := #[⟨0, c1Fields⟩] } }
    (.instRef 0)

/-- The interned literal "a" of the C2 scenario. -/
def strA : LoxStr := ⟨100, "a", hashString "a"⟩

/-- C2 scenario: the chunk the compiler emits for the statement
`1 - "a";` — CONSTANT 0; CONSTANT 1; SUBTRACT; POP; NIL; RETURN. -/
def c2Init : VMState := mkState ⟨#[0, 0, 0, 1, 19, 4, 1, 33], #[1, 1, 1, 1, 1, 1, 1, 1], #[.num 1, .str strA]⟩

/-- C3 scenario: a native and two number arguments on the stack. -/
def c3State : VMState :=
  let s := mkState ⟨#[], #[], #[]⟩
  { s with stack := #[.nativeRef 0, .num 7, .num 8],
           heap := { s.heap with natives := #[fun _ _ => .num 42] } }

/-- C4 scenario: the source text of the unterminated string literal
`"abc` with the scanner having just consumed the opening quote. -/
def c4Source : List Char := ['"', 'a', 'b', 'c']

/-- C8 scenario: a VM with 64 active frames. -/
def c8State : VMState :=
  let s := mkState ⟨#[], #[], #[]⟩
  { s with frames := List.replicate 64 ⟨0, 0, 0⟩ }

/-- A probe slot the find loop passes without returning: not fully empty,
and not holding the probed key. -/
def probePass {α : Type} (keys : Array (Option LoxStr)) (values : Array (Option α))
    (key : LoxStr) (i : Nat) : Prop :=
  ¬ ((keys.getD i none).isNone ∧ (values.getD i none).isNone) ∧
    keys.getD i none ≠ some key

/-- A probe slot the findString loop passes without returning: not fully
empty, and not holding any string with the probed hash and characters. -/
def fsPass {α : Type} (t : Table α) (chars : String) (hash : Int) (i : Nat) : Prop :=
  ¬ slotFree t i ∧
    ∀ key, keyAt t i = some key → ¬ (key.hash = hash ∧ key.chars = chars)

/-- The number of slots holding a key. -/
def numKeys {α : Type} (t : Table α) : Nat :=
  ((List.range t.capacity).filter (fun i => (keyAt t i).isSome)).length

instance decForallEqSome {β : Type} (o : Option β) (P : β → Prop) [∀ k, Decidable (P k)] :
    Decidable (∀ k, o = some k → P k) :=
  match o with
  | none => isTrue (by intro k hk; cases hk)
  | some x =>
    if h : P x then isTrue (by intro k hk; cases hk; exact h)
    else isFalse (fun hall => h (hall x rfl))

instance : Inhabited LoxStr := ⟨⟨0, "", 0⟩⟩

/-- C5 scenario: a chunk whose first instruction is SET_GLOBAL "g" with an
empty globals table. -/
def c5Name : LoxStr := ⟨103, "g", hashString "g"⟩

def c5Chunk : ChunkData := ⟨#[9, 0], #[1, 1], #[.str c5Name]⟩

def c5State : VMState := mkState c5Chunk

/-- C6 scenario: the concrete result of interning "x" into the empty
pool. -/
def c6s1 : LoxStr := ((Pool.empty.intern "x").map Prod.fst).getD default

def c6p1 : Pool := ((Pool.empty.intern "x").map Prod.snd).getD Pool.empty

/-- The script function holding c5Chunk, and the state about to execute the
SET_GLOBAL operand (the opcode byte at ip 0 already consumed). -/
def c5Func : FuncData := ⟨0, 0, c5Chunk, none⟩

def c5s : VMState := withIp c5State 1

def c5s1 : VMState := (readStringOp c5s c5Func).2

/-- C10 scenario: the table produced by one `set` on a fresh table. -/
def c10k : LoxStr := ⟨0, "g", 0⟩

def c10r : Bool × Table Nat := (Table.empty.set c10k 0).getD (false, Table.empty)

def c10t : Table Nat := c10r.2

/-! # Theorems -/

/-! ## Supporting lemmas on the 32-bit primitives -/

theorem toUint32_lt (n : Int) : toUint32 n < 2^32 := by
  unfold toUint32
  have h1 : (0 : Int) < 2^32 := by norm_num
  have := Int.emod_lt_of_pos n h1
  omega

theorem emod_eq_toUint32 (n : Int) : n % (2^32 : Int) = ((toUint32 n : Nat) : Int) := by
  unfold toUint32
  have h1 : (0 : Int) < 2^32 := by norm_num
  have h2 := Int.emod_nonneg n (by norm_num : (2^32 : Int) ≠ 0)
  omega

theorem toUint32_ofNat (u : Nat) (h : u < 2^32) : toUint32 (u : Int) = u := by
  unfold toUint32
  have : ((u : Int) % 2^32) = (u : Int) := Int.emod_eq_of_lt (by positivity) (by exact_mod_cast h)
  omega

theorem toUint32_toInt32 (n : Int) : toUint32 (toInt32 n) = toUint32 n := by
  unfold toInt32 toUint32
  have h2 := Int.emod_nonneg n (show (2^32:Int) ≠ 0 by norm_num)
  have h3 := Int.emod_lt_of_pos n (show (0:Int) < 2^32 by norm_num)
  split_ifs with h
  · omega
  · omega

theorem toInt32_congr (a b : Int) (h : toUint32 a = toUint32 b) : toInt32 a = toInt32 b := by
  unfold toInt32
  rw [h]

theorem toUint32_mul_p (a : Int) :
    toUint32 (a * 16777619) = (toUint32 a * 16777619) % 2^32 := by
  have h1 : a * 16777619 % 2^32 = ((toUint32 a : Int) * 16777619) % 2^32 := by
    rw [Int.mul_emod, emod_eq_toUint32 a, show ((16777619:Int) % 2^32) = 16777619 by decide]
  have h2 : ((toUint32 a : Int) * 16777619) % 2^32 =
      (((toUint32 a * 16777619) % 2^32 : Nat) : Int) := by
    push_cast
    ring_nf
  have h0 : toUint32 (a * 16777619) = ((a * 16777619) % 2^32).toNat := rfl
  rw [h0, h1, h2, Int.toNat_natCast]

theorem charToNat_lt (c : Char) : c.toNat < 2^32 := by
  have h := c.val.val.isLt
  simp [Char.toNat, UInt32.toNat] at h ⊢
  omega

theorem jsXor_toUint32 (a : Int) (c : Nat) (hc : c < 2^32) :
    toUint32 (jsXor a c) = (toUint32 a) ^^^ c := by
  unfold jsXor
  rw [toUint32_toInt32]
  have hx : toUint32 a ^^^ toUint32 (c : Int) < 2^32 :=
    Nat.xor_lt_two_pow (toUint32_lt a) (toUint32_lt (c : Int))
  rw [toUint32_ofNat _ hx, toUint32_ofNat c hc]

/-! ## Claim C9: hashString versus exact 32-bit FNV-1a -/

theorem fnvFold_lt (cs : List Char) : ∀ u : Nat, u < 2^32 →
    cs.foldl (fun h ch => ((h ^^^ ch.toNat) * 16777619) % 2^32) u < 2^32 := by
  induction cs with
  | nil => intro u h; exact h
  | cons c cs ih =>
    intro u _
    exact ih _ (Nat.mod_lt _ (by norm_num))

theorem hashFold_exact (cs : List Char) : ∀ hi : Int,
    (∀ p ∈ hashProductsAux cs hi, rdF64 p = p) →
    toUint32 (cs.foldl (fun h ch => hashStep h ch.toNat) hi) =
      cs.foldl (fun u ch => ((u ^^^ ch.toNat) * 16777619) % 2^32) (toUint32 hi) := by
  induction cs with
  | nil => intro hi _; rfl
  | cons c cs ih =>
    intro hi hex
    have hhead : rdF64 (jsXor hi c.toNat * 16777619) = jsXor hi c.toNat * 16777619 :=
      hex _ (by simp [hashProductsAux])
    have htail : ∀ p ∈ hashProductsAux cs (hashStep hi c.toNat), rdF64 p = p := by
      intro p hp
      exact hex p (by simp [hashProductsAux, hp])
    simp only [List.foldl_cons]
    rw [ih _ htail]
    congr 1
    show toUint32 (hashStep hi c.toNat) = ((toUint32 hi ^^^ c.toNat) * 16777619) % 2^32
    unfold hashStep
    rw [hhead, toUint32_mul_p, jsXor_toUint32 hi c.toNat (charToNat_lt c)]

/-- Claim C9, as amended: hashString computes FNV-1a with each XOR step on
the signed 32-bit reduction and each multiplication by 16777619 performed
in IEEE-754 double precision; whenever no intermediate product is rounded,
the result is the exact 32-bit FNV-1a hash reinterpreted as a signed
32-bit integer. -/
theorem c9_hash_exact_agreement (key : String) (h : ExactFnv key) :
    hashString key = toInt32 ((fnv1a32 key : Nat) : Int) := by
  unfold hashString fnv1a32
  apply toInt32_congr
  rw [hashFold_exact key.data 2166136261 h]
  have hlt : key.data.foldl (fun h ch => ((h ^^^ ch.toNat) * 16777619) % 2^32)
      (2166136261 % 2^32) < 2^32 :=
    fnvFold_lt key.data _ (Nat.mod_lt _ (by norm_num))
  rw [toUint32_ofNat _ hlt]
  have : toUint32 (2166136261 : Int) = 2166136261 % 2^32 := by decide
  rw [this]

/-- Claim C9 counterexample: on the key "b" the source hash differs from
the exact 32-bit FNV-1a hash under both the signed and the unsigned
reinterpretation (the double multiplication rounds). -/
theorem c9_counterexample :
    hashString "b" ≠ toInt32 ((fnv1a32 "b" : Nat) : Int) ∧
    toUint32 (hashString "b") ≠ fnv1a32 "b" := by decide

/-- Witness for c9_hash_exact_agreement: the key "a" happens to round
nowhere (its one product is divisible by 4), and the theorem applies. -/
theorem c9_hash_exact_agreement_witness :
    ExactFnv "a" ∧ hashString "a" = toInt32 ((fnv1a32 "a" : Nat) : Int) :=
  ⟨by decide, c9_hash_exact_agreement "a" (by decide)⟩

/-! ## Claim C4: the scanner on an unterminated string literal -/

theorem c4Source_no_quote (i : Nat) (h : 1 ≤ i) : c4Source.get? i ≠ some '"' := by
  rcases Nat.lt_or_ge i 4 with h4 | h4
  · interval_cases i <;> decide
  · have h5 : c4Source.get? i = none := by
      rw [List.get?_eq_none]
      simpa [c4Source] using h4
    rw [h5]
    simp

theorem c4_stringLoop_never_exits (fuel : Nat) : ∀ st : ScanState, 1 ≤ st.current →
    stringLoop c4Source st fuel = none := by
  induction fuel with
  | zero => intro st _; rfl
  | succ f ih =>
    intro st h
    unfold stringLoop
    have hq := c4Source_no_quote st.current h
    match hcs : c4Source.get? st.current with
    | some c =>
      have hne : ¬ c = '"' := by
        intro he; exact hq (by rw [hcs, he])
      simp only [hne, if_false]
      split_ifs with hnl
      · exact ih _ (show 1 ≤ st.current + 1 by omega)
      · exact ih _ (show 1 ≤ st.current + 1 by omega)
    | none =>
      exact ih _ (show 1 ≤ st.current + 1 by omega)

/-- Claim C4 (code bug): on the unterminated string literal `"abc` the
`string()` method never returns — its scan loop compares the out-of-range
read (JS undefined) against the closing quote forever — so no ERROR token
is produced, contrary to the claim and the spec. -/
theorem c4_string_scan_never_returns (fuel : Nat) :
    scanStringLit c4Source ⟨1, 1, 0⟩ fuel = none := by
  unfold scanStringLit
  rw [c4_stringLoop_never_exits fuel ⟨1, 1, 0⟩ (by norm_num)]

/-! ## Claim C1: GET_PROPERTY on a field holding nil -/

/-- Claim C1 (code bug): the instance on top of the stack has field "p"
stored with value nil, yet executing GET_PROPERTY reports the runtime
error "Undefined property 'p'." instead of replacing the top of the stack
with nil: the source tests the field with JS truthiness (`if (value)`)
rather than presence. -/
theorem c1_get_property_nil_field_errors :
    c1Fields.get strP = some (some .nil) ∧
    (step c1Init).resultOf = some InterpretResult.runtimeError ∧
    (step c1Init).stateOf.errLog = ["Undefined property 'p'."] := by decide

/-! ## Claim C2: non-number operands of SUBTRACT do not halt the loop -/

/-- Claim C2 (code bug): running `1 - "a";`, the SUBTRACT dispatch (third
step) logs "Operands must be numbers." and resets the VM, but the
dispatch loop continues — two further opcodes execute (POP and NIL, the
latter pushing nil onto the freshly cleared stack) because the
`binaryOp` result is discarded — and the run then crashes inside RETURN
(`frames.length--` on an empty array) instead of returning
RUNTIME_ERROR. -/
theorem c2_binary_op_error_does_not_halt :
    (stepN c2Init 3).map VMState.errLog = some ["Operands must be numbers."] ∧
    (stepN c2Init 3).map VMState.frames = some [] ∧
    (stepN c2Init 5).map VMState.stack = some #[.nil] ∧
    runFuel c2Init 10 = .stuck := by decide

/-! ## Claim C3: a native call does not pop the callee -/

/-- Claim C3 (code bug): calling a native with 2 arguments pops only the
2 arguments before pushing the result (`stack.length -= argCount`): the
callee stays below the result, so the net effect removes argCount values,
not argCount+1 as the spec and claim state. -/
theorem c3_native_call_keeps_callee :
    (callValue c3State (peekStk c3State 2) 2).map (fun r => (r.1, r.2.stack)) =
      some (true, #[.nativeRef 0, .num 42]) := by decide

/-! ## Array getD lemmas -/

theorem getD_push_lt {α : Type} (a : Array α) (v d : α) (i : Nat) (h : i < a.size) :
    (a.push v).getD i d = a.getD i d := by
  rw [Array.getD_eq_get?, Array.getD_eq_get?, Array.getElem?_push_lt a v i h,
      Array.getElem?_lt a h]

theorem getD_push_eq {α : Type} (a : Array α) (v d : α) : (a.push v).getD a.size d = v := by
  rw [Array.getD_eq_get?]
  have h : a.size < (a.push v).size := by simp
  rw [Array.getElem?_lt _ h]
  simp [Array.getElem_push_eq]

theorem getD_setD_ne {α : Type} (a : Array α) (i j : Nat) (v d : α) (h : i ≠ j) :
    (a.setD i v).getD j d = a.getD j d := by
  unfold Array.setD
  split_ifs with hi
  · rw [Array.getD_eq_get?, Array.getD_eq_get?, Array.getElem?_set_ne a ⟨i, hi⟩ v h]
  · rfl

theorem getD_setD_eq {α : Type} (a : Array α) (i : Nat) (v d : α) (h : i < a.size) :
    (a.setD i v).getD i d = v := by
  unfold Array.setD
  simp only [h, dif_pos]
  rw [Array.getD_eq_get?]
  have h2 := Array.getElem?_set_eq a ⟨i, h⟩ v
  simp at h2
  simp [h2]

theorem setD_out {α : Type} (a : Array α) (i : Nat) (v : α) (h : ¬ i < a.size) :
    a.setD i v = a := by
  unfold Array.setD
  simp [h]

/-! ## Claim C7: the open-upvalue list -/

/-- Only the stack indices of listed upvalues matter for the invariant:
two arenas agreeing on them give the same chain. -/
theorem chain_upIndex_ext (A B : Array UpvalData) :
    ∀ l : List Nat, (∀ x ∈ l, upIndex B x = upIndex A x) →
    l.Chain' (fun a b => upIndex A b < upIndex A a) →
    l.Chain' (fun a b => upIndex B b < upIndex B a) := by
  intro l
  induction l with
  | nil => intro _ _; exact List.chain'_nil
  | cons a l ih =>
    intro hagree hch
    rw [List.chain'_cons'] at hch ⊢
    refine ⟨?_, ih (fun x hx => hagree x (List.mem_cons_of_mem a hx)) hch.2⟩
    intro y hy
    have hyl : y ∈ l := List.mem_of_mem_head? hy
    rw [hagree y (List.mem_cons_of_mem a hyl), hagree a (List.mem_cons_self a l)]
    exact hch.1 y hy

/-- The effect of captureUpvalue's walk on a well-formed open list: the
invariant is preserved, the arena only grows (old indices unchanged), and
the head of the new list has stack index ≥ the captured index (it is the
old head or the fresh upvalue). -/
theorem captureWalk_spec (index : Nat) :
    ∀ (l : List Nat) (upvals : Array UpvalData), OpenInv upvals l →
    OpenInv (captureWalk upvals (index : Int) l).1 (captureWalk upvals (index : Int) l).2.1 ∧
    upvals.size ≤ (captureWalk upvals (index : Int) l).1.size ∧
    (∀ x, x < upvals.size →
      upIndex (captureWalk upvals (index : Int) l).1 x = upIndex upvals x) ∧
    (∀ h ∈ (captureWalk upvals (index : Int) l).2.1.head?,
      upIndex (captureWalk upvals (index : Int) l).1 h = (index : Int) ∨
        ∃ h0 ∈ l.head?, h = h0) := by
  intro l
  induction l with
  | nil =>
    intro upvals _
    simp only [captureWalk]
    refine ⟨⟨?_, ?_⟩, ?_, ?_, ?_⟩
    · exact List.chain'_singleton _
    · intro u hu
      rw [List.mem_singleton] at hu
      subst hu
      constructor
      · show (0:Int) ≤ upIndex (upvals.push ⟨(index : Int), .nil⟩) upvals.size
        unfold upIndex
        rw [getD_push_eq]
        positivity
      · simp
    · simp
    · intro x hx
      unfold upIndex
      rw [getD_push_lt _ _ _ _ hx]
    · intro h hh
      simp at hh
      subst hh
      left
      unfold upIndex
      rw [getD_push_eq]
  | cons u rest ih =>
    intro upvals hinv
    obtain ⟨hch, hmem⟩ := hinv
    have htail : OpenInv upvals rest :=
      ⟨hch.tail, fun x hx => hmem x (List.mem_cons_of_mem u hx)⟩
    have humem := hmem u (List.mem_cons_self u rest)
    simp only [captureWalk]
    split_ifs with h1 h2
    · -- walk past u
      obtain ⟨⟨ich, imem⟩, isize, iagree, ihead⟩ := ih upvals htail
      have hu_agree : upIndex (captureWalk upvals (index : Int) rest).1 u = upIndex upvals u :=
        iagree u humem.2
      refine ⟨⟨?_, ?_⟩, ?_, ?_, ?_⟩
      · rw [List.chain'_cons']
        refine ⟨?_, ich⟩
        intro y hy
        rcases ihead y hy with hidx | ⟨h0, hh0, heq⟩
        · rw [hidx, hu_agree]; exact h1
        · subst heq
          have h0rest : y ∈ rest := List.mem_of_mem_head? hh0
          rw [hu_agree, iagree y (hmem y (List.mem_cons_of_mem u h0rest)).2]
          rw [List.chain'_cons'] at hch
          exact hch.1 y hh0
      · intro x hx
        rcases List.mem_cons.mp hx with rfl | hx2
        · exact ⟨by rw [hu_agree]; exact humem.1, lt_of_lt_of_le humem.2 isize⟩
        · exact imem x hx2
      · exact isize
      · exact iagree
      · intro h hh
        simp at hh
        subst hh
        right
        exact ⟨u, by simp, rfl⟩
    · -- reuse u
      refine ⟨⟨hch, hmem⟩, le_refl _, fun x _ => rfl, ?_⟩
      intro h hh
      simp at hh
      subst hh
      right
      exact ⟨u, by simp, rfl⟩
    · -- insert before u
      have hlt : upIndex upvals u < (index : Int) := by unfold upIndex; omega
      refine ⟨⟨?_, ?_⟩, ?_, ?_, ?_⟩
      · rw [List.chain'_cons']
        constructor
        · intro y hy
          simp at hy
          subst hy
          unfold upIndex
          rw [getD_push_eq, getD_push_lt _ _ _ _ humem.2]
          exact hlt
        · apply chain_upIndex_ext upvals
          · intro x hx
            unfold upIndex
            rw [getD_push_lt _ _ _ _ (hmem x hx).2]
          · exact hch
      · intro x hx
        rcases List.mem_cons.mp hx with rfl | hx2
        · constructor
          · unfold upIndex
            rw [getD_push_eq]
            positivity
          · simp
        · have hx3 := hmem x hx2
          constructor
          · unfold upIndex
            rw [getD_push_lt _ _ _ _ hx3.2]
            exact hx3.1
          · rw [Array.size_push]
            omega
      · simp
      · intro x hx
        unfold upIndex
        rw [getD_push_lt _ _ _ _ hx]
      · intro h hh
        simp at hh
        subst hh
        left
        unfold upIndex
        rw [getD_push_eq]

/-- closeUpvalues' walk preserves the open-list invariant. -/
theorem closeWalk_spec (stack : Array Value) (last : Int) :
    ∀ (l : List Nat) (upvals : Array UpvalData), OpenInv upvals l →
    OpenInv (closeWalk stack last upvals l).1 (closeWalk stack last upvals l).2 := by
  intro l
  induction l with
  | nil =>
    intro upvals _
    exact ⟨List.chain'_nil, fun x hx => absurd hx (List.not_mem_nil x)⟩
  | cons u rest ih =>
    intro upvals hinv
    obtain ⟨hch, hmem⟩ := hinv
    have humem := hmem u (List.mem_cons_self u rest)
    simp only [closeWalk]
    split_ifs with h1
    · -- close the head, recurse
      apply ih
      have hpair : ∀ x ∈ rest, upIndex upvals x < upIndex upvals u := by
        haveI : IsTrans Nat (fun a b => upIndex upvals b < upIndex upvals a) :=
          ⟨fun _ _ _ hab hbc => lt_trans hbc hab⟩
        have := List.chain'_iff_pairwise.mp hch
        rw [List.pairwise_cons] at this
        exact this.1
      have hne : ∀ x ∈ rest, u ≠ x := by
        intro x hx heq
        have hcontra := hpair x hx
        rw [← heq] at hcontra
        exact lt_irrefl _ hcontra
      have hagree : ∀ x ∈ rest,
          upIndex (upvals.setD u ⟨-1, stack.getD (upvals.getD u ⟨-1, .nil⟩).index.toNat .nil⟩) x =
            upIndex upvals x := by
        intro x hx
        unfold upIndex
        rw [getD_setD_ne _ _ _ _ _ (hne x hx)]
      constructor
      · exact chain_upIndex_ext upvals _ rest hagree hch.tail
      · intro x hx
        rw [hagree x hx]
        refine ⟨(hmem x (List.mem_cons_of_mem u hx)).1, ?_⟩
        rw [Array.size_setD]
        exact (hmem x (List.mem_cons_of_mem u hx)).2
    · exact ⟨hch, hmem⟩

/-- Claim C7: every reachable (arena, open list) pair satisfies the
strictly-descending invariant, and the invariant is preserved by the VM's
captureUpvalue and closeUpvalues operations on any state that satisfies
it. -/
theorem c7_open_upvalue_list_invariant :
    (∀ (upvals : Array UpvalData) (openUps : List Nat),
      UpReach upvals openUps → OpenInv upvals openUps) ∧
    (∀ (s : VMState) (index : Nat), OpenInv s.heap.upvals s.openUps →
      OpenInv (captureUpvalue s (index : Int)).1.heap.upvals
        (captureUpvalue s (index : Int)).1.openUps) ∧
    (∀ (s : VMState) (last : Int), OpenInv s.heap.upvals s.openUps →
      OpenInv (closeUpvalues s last).heap.upvals (closeUpvalues s last).openUps) := by
  have hcap : ∀ (upvals : Array UpvalData) (openUps : List Nat) (index : Nat),
      OpenInv upvals openUps →
      OpenInv (captureWalk upvals (index : Int) openUps).1
        (captureWalk upvals (index : Int) openUps).2.1 :=
    fun upvals openUps index hinv => (captureWalk_spec index openUps upvals hinv).1
  refine ⟨?_, ?_, ?_⟩
  · intro upvals openUps hreach
    induction hreach with
    | init => exact ⟨List.chain'_nil, by simp⟩
    | capture upvals openUps index _ ih => exact hcap upvals openUps index ih
    | close upvals openUps stack last _ ih => exact closeWalk_spec stack last openUps upvals ih
    | writeClosed upvals openUps u v _ hclosed ih =>
      obtain ⟨hch, hmem⟩ := ih
      have hne : ∀ x ∈ openUps, u ≠ x := by
        intro x hx heq
        subst heq
        have := (hmem u hx).1
        omega
      have hagree : ∀ x ∈ openUps,
          upIndex (upvals.setD u ⟨(upvals.getD u ⟨-1, .nil⟩).index, v⟩) x = upIndex upvals x := by
        intro x hx
        unfold upIndex
        rw [getD_setD_ne _ _ _ _ _ (hne x hx)]
      constructor
      · exact chain_upIndex_ext upvals _ openUps hagree hch
      · intro x hx
        rw [hagree x hx]
        refine ⟨(hmem x hx).1, ?_⟩
        rw [Array.size_setD]
        exact (hmem x hx).2
    | reset upvals openUps _ _ => exact ⟨List.chain'_nil, by simp⟩
  · intro s index hinv
    exact hcap s.heap.upvals s.openUps index hinv
  · intro s last hinv
    exact closeWalk_spec s.stack last s.openUps s.heap.upvals hinv

/-- Witness for c7_open_upvalue_list_invariant: a short reachable capture
sequence, and the preservation parts applied at a concrete state. -/
theorem c7_open_upvalue_list_invariant_witness :
    OpenInv (captureWalk #[] (3 : Int) []).1 (captureWalk #[] (3 : Int) []).2.1 ∧
    OpenInv (captureUpvalue c3State (5 : Int)).1.heap.upvals
      (captureUpvalue c3State (5 : Int)).1.openUps ∧
    OpenInv (closeUpvalues c3State 0).heap.upvals (closeUpvalues c3State 0).openUps :=
  ⟨c7_open_upvalue_list_invariant.1 _ _
      (UpReach.capture #[] [] 3 UpReach.init),
    c7_open_upvalue_list_invariant.2.1 c3State 5
      ⟨List.chain'_nil, by simp [c3State, mkState]⟩,
    c7_open_upvalue_list_invariant.2.2 c3State 0
      ⟨List.chain'_nil, by simp [c3State, mkState]⟩⟩

/-! ## Claim C8: the 64-frame cap -/

/-- Claim C8: every reachable frame count is at most 64; VM.call never
pushes past 64 (any completed call either pushed one frame from strictly
below 64, or failed and left the frame stack reset, i.e. without the new
frame); and a call of a closure with matching arity while exactly 64
frames are active raises precisely the runtime error "Stack overflow.". -/
theorem c8_frame_stack_bounded :
    (∀ n, FrameCount n → n ≤ 64) ∧
    (∀ (s : VMState) (cid argCount : Nat) (r : Bool × VMState),
      callClosure s cid argCount = some r →
      (s.frames.length ≠ 64 ∧ r.1 = true ∧ r.2.frames.length = s.frames.length + 1) ∨
      (r.1 = false ∧ r.2.frames = [])) ∧
    (∀ (s : VMState) (cid : Nat) (c : ClosureData) (fn : FuncData),
      s.heap.closures.get? cid = some c →
      s.heap.funcs.get? c.funcId = some fn →
      s.frames.length = 64 →
      callClosure s cid fn.arity = some (false, runtimeErrorVM s "Stack overflow.")) := by
  refine ⟨?_, ?_, ?_⟩
  · intro n h
    induction h with
    | init => omega
    | push n _ hne ih => omega
    | pop n _ ih => omega
    | reset n _ _ => omega
  · intro s cid argCount r h
    unfold callClosure at h
    cases hc : s.heap.closures.get? cid with
    | none => rw [hc] at h; simp at h
    | some c =>
      rw [hc] at h
      simp only [Option.bind_eq_bind, Option.some_bind] at h
      cases hf : s.heap.funcs.get? c.funcId with
      | none => rw [hf] at h; simp at h
      | some fn =>
        rw [hf] at h
        simp only [Option.some_bind] at h
        split_ifs at h with ha hl
        · right
          simp only [Option.pure_def, Option.some_inj] at h
          subst h
          exact ⟨rfl, rfl⟩
        · right
          simp only [Option.pure_def, Option.some_inj] at h
          subst h
          exact ⟨rfl, rfl⟩
        · left
          simp only [Option.pure_def, Option.some_inj] at h
          subst h
          exact ⟨hl, rfl, by simp⟩
  · intro s cid c fn hc hf h64
    unfold callClosure
    rw [hc]
    simp only [Option.bind_eq_bind, Option.some_bind]
    rw [hf]
    simp [h64]

/-- Witness for c8_frame_stack_bounded: a reachable count and a concrete
blocked call at 64 frames. -/
theorem c8_frame_stack_bounded_witness :
    1 ≤ 64 ∧
    callClosure c8State 0 0 = some (false, runtimeErrorVM c8State "Stack overflow.") := by
  constructor
  · exact c8_frame_stack_bounded.1 1 (FrameCount.push 0 FrameCount.init (by decide))
  · have h := c8_frame_stack_bounded.2.2 c8State 0 ⟨0, #[]⟩ ⟨0, 0, ⟨#[], #[], #[]⟩, none⟩
      rfl rfl (by decide)
    exact h

/-! ## Probe-loop lemmas for the Table (claims C10, C5, C6) -/

theorem and_mask_mod (cap i m : Nat) (hcap : cap = 2^m) : i &&& (cap - 1) = i % cap := by
  subst hcap
  exact Nat.and_pow_two_sub_one_eq_mod i m

theorem walk_shift (cap idx j : Nat) : ((idx + 1) % cap + j) % cap = (idx + (j + 1)) % cap := by
  rw [Nat.mod_add_mod, Nat.add_assoc]
  congr 1
  omega

/-- The find loop returns, and returns an empty/tombstone slot or a slot
holding the probed key, as soon as some fully-empty slot lies within fuel
steps of the current index. -/
theorem findLoop_success {α : Type} (keys : Array (Option LoxStr)) (values : Array (Option α))
    (cap m : Nat) (key : LoxStr) (hcap : cap = 2^m) (hcap1 : 0 < cap) :
    ∀ (fuel idx : Nat) (tomb : Option Nat),
    idx < cap →
    (∀ t, tomb = some t → (keys.getD t none).isNone) →
    (∃ d, d < fuel ∧ (keys.getD ((idx + d) % cap) none).isNone ∧
        (values.getD ((idx + d) % cap) none).isNone) →
    ∃ i, findLoop keys values (cap - 1) key tomb idx fuel = some i ∧
      ((keys.getD i none).isNone ∨ keys.getD i none = some key) := by
  intro fuel
  induction fuel with
  | zero =>
    intro idx tomb _ _ hex
    obtain ⟨d, hd, _⟩ := hex
    omega
  | succ f ih =>
    intro idx tomb hidx htomb hex
    have hstep : (idx + 1) &&& (cap - 1) = (idx + 1) % cap := and_mask_mod cap _ m hcap
    cases hk : keys.getD idx none with
    | none =>
      cases hv : values.getD idx none with
      | none =>
        refine ⟨tomb.getD idx, ?_, ?_⟩
        · simp [findLoop, hk, hv]
        · left
          cases tomb with
          | none => simpa using hk
          | some t => simpa using htomb t rfl
      | some v =>
        obtain ⟨d, hd, hkd, hvd⟩ := hex
        have hdpos : d ≠ 0 := by
          intro h0
          subst h0
          rw [Nat.add_zero, Nat.mod_eq_of_lt hidx, hv] at hvd
          simp at hvd
        obtain ⟨i, hfind, hres⟩ := ih ((idx + 1) % cap) (some idx)
          (Nat.mod_lt _ hcap1)
          (fun t ht => by cases ht; simpa using hk)
          ⟨d - 1, by omega, by
            rw [walk_shift, show d - 1 + 1 = d by omega]
            exact hkd, by
            rw [walk_shift, show d - 1 + 1 = d by omega]
            exact hvd⟩
        refine ⟨i, ?_, hres⟩
        rw [show findLoop keys values (cap-1) key tomb idx (f+1) =
          findLoop keys values (cap-1) key (some idx) ((idx+1) &&& (cap-1)) f by
            simp [findLoop, hk, hv], hstep]
        exact hfind
    | some key2 =>
      by_cases hkey : key = key2
      · refine ⟨idx, ?_, ?_⟩
        · simp [findLoop, hk, hkey]
        · right
          rw [hk, hkey]
      · obtain ⟨d, hd, hkd, hvd⟩ := hex
        have hdpos : d ≠ 0 := by
          intro h0
          subst h0
          rw [Nat.add_zero, Nat.mod_eq_of_lt hidx, hk] at hkd
          simp at hkd
        obtain ⟨i, hfind, hres⟩ := ih ((idx + 1) % cap) tomb
          (Nat.mod_lt _ hcap1) htomb
          ⟨d - 1, by omega, by
            rw [walk_shift, show d - 1 + 1 = d by omega]
            exact hkd, by
            rw [walk_shift, show d - 1 + 1 = d by omega]
            exact hvd⟩
        refine ⟨i, ?_, hres⟩
        rw [show findLoop keys values (cap-1) key tomb idx (f+1) =
          findLoop keys values (cap-1) key tomb ((idx+1) &&& (cap-1)) f by
            simp [findLoop, hk, hkey], hstep]
        exact hfind

/-- If the probe sequence reaches a slot holding the key with no earlier
stopping slot, the find loop returns exactly that slot. -/
theorem findLoop_finds {α : Type} (keys : Array (Option LoxStr)) (values : Array (Option α))
    (cap m : Nat) (key : LoxStr) (hcap : cap = 2^m) (hcap1 : 0 < cap) :
    ∀ (d fuel idx : Nat) (tomb : Option Nat), idx < cap → d < fuel →
    (∀ j, j < d → probePass keys values key ((idx + j) % cap)) →
    keys.getD ((idx + d) % cap) none = some key →
    findLoop keys values (cap - 1) key tomb idx fuel = some ((idx + d) % cap) := by
  intro d
  induction d with
  | zero =>
    intro fuel idx tomb hidx hfuel _ hmatch
    simp only [Nat.zero_eq, Nat.add_zero, Nat.mod_eq_of_lt hidx] at hmatch
    cases fuel with
    | zero => omega
    | succ f =>
      simp only [Nat.zero_eq, Nat.add_zero, Nat.mod_eq_of_lt hidx]
      simp [findLoop, hmatch]
  | succ d ih =>
    intro fuel idx tomb hidx hfuel hpass hmatch
    have hstep : (idx + 1) &&& (cap - 1) = (idx + 1) % cap := and_mask_mod cap _ m hcap
    have hp0 := hpass 0 (Nat.succ_pos d)
    rw [Nat.add_zero, Nat.mod_eq_of_lt hidx] at hp0
    cases fuel with
    | zero => omega
    | succ f =>
      have hnext : ∀ tomb1, findLoop keys values (cap - 1) key tomb1 ((idx + 1) % cap) f =
          some (((idx + 1) % cap + d) % cap) := by
        intro tomb1
        apply ih f ((idx + 1) % cap) tomb1 (Nat.mod_lt _ hcap1) (by omega)
        · intro j hj
          rw [walk_shift]
          exact hpass (j + 1) (by omega)
        · rw [walk_shift]
          exact hmatch
      have hgoal : (((idx + 1) % cap + d) % cap) = (idx + (d + 1)) % cap := walk_shift cap idx d
      cases hk : keys.getD idx none with
      | none =>
        cases hv : values.getD idx none with
        | none =>
          exfalso
          exact hp0.1 (by rw [hk, hv]; exact ⟨rfl, rfl⟩)
        | some v =>
          rw [show findLoop keys values (cap-1) key tomb idx (f+1) =
            findLoop keys values (cap-1) key (some idx) ((idx+1) &&& (cap-1)) f by
              simp [findLoop, hk, hv], hstep, hnext (some idx), hgoal]
      | some key2 =>
        have hne : key ≠ key2 := by
          intro he
          exact hp0.2 (by rw [hk, he])
        rw [show findLoop keys values (cap-1) key tomb idx (f+1) =
          findLoop keys values (cap-1) key tomb ((idx+1) &&& (cap-1)) f by
            simp [findLoop, hk, hne], hstep, hnext tomb, hgoal]

theorem walk_step (cap start s : Nat) : ((start + s) % cap + 1) % cap = (start + (s + 1)) % cap := by
  rw [Nat.mod_add_mod, Nat.add_assoc]

/-- Where the find loop's result sits on the probe sequence: at some step d
with every earlier step a passed slot, and — unless it is a slot holding
the key — the result slot has no key and some fully-empty slot at step
de ≥ d stopped the loop, with every step before de passed. -/
theorem findLoop_path {α : Type} (keys : Array (Option LoxStr)) (values : Array (Option α))
    (cap m : Nat) (key : LoxStr) (hcap : cap = 2^m) (hcap1 : 0 < cap) (start : Nat) :
    ∀ (fuel s : Nat) (tomb : Option Nat) (i : Nat),
    (∀ j, j < s → probePass keys values key ((start + j) % cap)) →
    (∀ t, tomb = some t → ∃ dt, dt < s ∧ t = (start + dt) % cap ∧
        (keys.getD t none).isNone) →
    findLoop keys values (cap - 1) key tomb ((start + s) % cap) fuel = some i →
    ∃ d, d < s + fuel ∧ i = (start + d) % cap ∧
      (∀ j, j < d → probePass keys values key ((start + j) % cap)) ∧
      (keys.getD i none = some key ∨
        ((keys.getD i none).isNone ∧
          ∃ de, d ≤ de ∧ de < s + fuel ∧
            (keys.getD ((start + de) % cap) none).isNone ∧
            (values.getD ((start + de) % cap) none).isNone ∧
            ∀ j, j < de → probePass keys values key ((start + j) % cap))) := by
  intro fuel
  induction fuel with
  | zero =>
    intro s tomb i _ _ hfind
    cases hfind
  | succ f ih =>
    intro s tomb i hclear htomb hfind
    have hstep : ((start + s) % cap + 1) &&& (cap - 1) = (start + (s + 1)) % cap := by
      rw [and_mask_mod cap _ m hcap, walk_step]
    cases hk : keys.getD ((start + s) % cap) none with
    | none =>
      cases hv : values.getD ((start + s) % cap) none with
      | none =>
        have hi : i = tomb.getD ((start + s) % cap) := by
          rw [show findLoop keys values (cap-1) key tomb ((start + s) % cap) (f+1) =
            some (tomb.getD ((start + s) % cap)) by simp [findLoop, hk, hv]] at hfind
          exact (Option.some_inj.mp hfind).symm
        cases tomb with
        | none =>
          have hieq : i = (start + s) % cap := by simpa using hi
          subst hieq
          exact ⟨s, by omega, rfl, hclear,
            Or.inr ⟨Option.isNone_iff_eq_none.mpr hk, s, le_refl s, by omega,
              Option.isNone_iff_eq_none.mpr hk, Option.isNone_iff_eq_none.mpr hv, hclear⟩⟩
        | some t =>
          obtain ⟨dt, hdt, hteq, htnone⟩ := htomb t rfl
          simp only [Option.getD_some] at hi
          subst hi
          exact ⟨dt, by omega, hteq, fun j hj => hclear j (by omega),
            Or.inr ⟨htnone, s, by omega, by omega,
              Option.isNone_iff_eq_none.mpr hk, Option.isNone_iff_eq_none.mpr hv, hclear⟩⟩
      | some v =>
        have hrec : findLoop keys values (cap-1) key (some ((start + s) % cap))
            ((start + (s+1)) % cap) f = some i := by
          rw [show findLoop keys values (cap-1) key tomb ((start + s) % cap) (f+1) =
            findLoop keys values (cap-1) key (some ((start + s) % cap))
              (((start + s) % cap + 1) &&& (cap-1)) f by simp [findLoop, hk, hv],
            hstep] at hfind
          exact hfind
        have hclear1 : ∀ j, j < s + 1 → probePass keys values key ((start + j) % cap) := by
          intro j hj
          rcases Nat.lt_or_ge j s with hjs | hjs
          · exact hclear j hjs
          · have : j = s := by omega
            subst this
            constructor
            · intro hcon
              rw [hv] at hcon
              simp at hcon
            · rw [hk]
              simp
        obtain ⟨d, hd, hieq, hpre, hres⟩ := ih (s+1) (some ((start + s) % cap)) i hclear1
          (fun t ht => by
            cases ht
            exact ⟨s, by omega, rfl, by simpa using hk⟩)
          hrec
        exact ⟨d, by omega, hieq, hpre, by
          rcases hres with hl | ⟨hn, de, hde1, hde2, hde3, hde4, hde5⟩
          · exact Or.inl hl
          · exact Or.inr ⟨hn, de, hde1, by omega, hde3, hde4, hde5⟩⟩
    | some key2 =>
      by_cases hkey : key = key2
      · have hi : i = (start + s) % cap := by
          rw [show findLoop keys values (cap-1) key tomb ((start + s) % cap) (f+1) =
            some ((start + s) % cap) by simp [findLoop, hk, hkey]] at hfind
          exact (Option.some_inj.mp hfind).symm
        subst hi
        exact ⟨s, by omega, rfl, hclear, Or.inl (by rw [hk, hkey])⟩
      · have hrec : findLoop keys values (cap-1) key tomb ((start + (s+1)) % cap) f = some i := by
          rw [show findLoop keys values (cap-1) key tomb ((start + s) % cap) (f+1) =
            findLoop keys values (cap-1) key tomb
              (((start + s) % cap + 1) &&& (cap-1)) f by simp [findLoop, hk, hkey],
            hstep] at hfind
          exact hfind
        have hclear1 : ∀ j, j < s + 1 → probePass keys values key ((start + j) % cap) := by
          intro j hj
          rcases Nat.lt_or_ge j s with hjs | hjs
          · exact hclear j hjs
          · have : j = s := by omega
            subst this
            constructor
            · intro hcon
              rw [hk] at hcon
              simp at hcon
            · rw [hk]
              intro hcon
              exact hkey (by injection hcon with h2; rw [h2])
        obtain ⟨d, hd, hieq, hpre, hres⟩ := ih (s+1) tomb i hclear1
          (fun t ht => by
            obtain ⟨dt, hdt, hteq, htnone⟩ := htomb t ht
            exact ⟨dt, by omega, hteq, htnone⟩)
          hrec
        exact ⟨d, by omega, hieq, hpre, by
          rcases hres with hl | ⟨hn, de, hde1, hde2, hde3, hde4, hde5⟩
          · exact Or.inl hl
          · exact Or.inr ⟨hn, de, hde1, by omega, hde3, hde4, hde5⟩⟩

/-! ## Counting lemmas for table slots -/

theorem countP_congr_list (l : List Nat) (p q : Nat → Bool) (h : ∀ x ∈ l, p x = q x) :
    l.countP p = l.countP q :=
  Nat.le_antisymm
    (List.countP_mono_left (fun x hx hp => by rw [← h x hx]; exact hp))
    (List.countP_mono_left (fun x hx hq => by rw [h x hx]; exact hq))

theorem countP_point (cap i : Nat) (hi : i < cap) (f g : Nat → Bool)
    (hne : ∀ j, j ≠ i → f j = g j) :
    (List.range cap).countP g + (if f i then 1 else 0) =
      (List.range cap).countP f + (if g i then 1 else 0) := by
  induction cap with
  | zero => omega
  | succ n ih =>
    rw [List.range_succ, List.countP_append, List.countP_append]
    by_cases hin : i = n
    · subst hin
      have hfg : (List.range i).countP f = (List.range i).countP g := by
        apply countP_congr_list
        intro x hx
        rw [List.mem_range] at hx
        exact hne x (by omega)
      simp only [List.countP_cons, List.countP_nil]
      rw [hfg]
      by_cases hf : f i <;> by_cases hg : g i <;> simp [hf, hg] <;> omega
    · have hi2 : i < n := by omega
      have hrec := ih hi2
      have hfgn : f n = g n := hne n (by omega)
      simp only [List.countP_cons, List.countP_nil]
      rw [hfgn]
      by_cases hg : g n <;> simp [hg] <;> omega

/-- The number of keyed slots never exceeds the number of value-holding
slots in a table whose keys all have values. -/
theorem numKeys_le_numDefined {α : Type} (t : Table α)
    (hkv : ∀ i, i < t.capacity → (keyAt t i).isSome → (valAt t i).isSome) :
    numKeys t ≤ numDefined t := by
  unfold numKeys numDefined
  rw [← List.countP_eq_length_filter, ← List.countP_eq_length_filter]
  apply List.countP_mono_left
  intro x hx
  rw [List.mem_range] at hx
  exact hkv x hx

/-- A well-formed table with nonzero capacity has a fully-empty slot
within capacity steps of any probe start. -/
theorem twf_free_exists {α : Type} (t : Table α) (htwf : TWF t) (hpos : 0 < t.capacity)
    (start : Nat) (hstart : start < t.capacity) :
    ∃ d, d < t.capacity ∧
      (t.keys.getD ((start + d) % t.capacity) none).isNone ∧
      (t.values.getD ((start + d) % t.capacity) none).isNone := by
  have hdef : numDefined t < t.capacity := by
    have h1 := htwf.load
    have h2 := htwf.countDef
    omega
  have hex : ∃ e, e < t.capacity ∧ (valAt t e).isNone := by
    by_contra hall
    push_neg at hall
    have hlen : numDefined t = t.capacity := by
      unfold numDefined
      rw [← List.countP_eq_length_filter]
      have hall2 : (List.range t.capacity).countP (fun i => (valAt t i).isSome)
          = (List.range t.capacity).length := by
        rw [List.countP_eq_length]
        intro x hx
        rw [List.mem_range] at hx
        have hnv := hall x hx
        cases hval : valAt t x with
        | none =>
          rw [hval] at hnv
          simp at hnv
        | some v => simp
      rw [hall2, List.length_range]
    omega
  obtain ⟨e, he, hev⟩ := hex
  have hek : (keyAt t e).isNone := by
    cases hkk : keyAt t e with
    | none => simp
    | some k =>
      exfalso
      have hs := htwf.keyVal e he (by rw [hkk]; simp)
      rw [Option.isNone_iff_eq_none] at hev
      rw [hev] at hs
      simp at hs
  refine ⟨(t.capacity + e - start) % t.capacity, Nat.mod_lt _ hpos, ?_, ?_⟩
  all_goals
    have heq : (start + (t.capacity + e - start) % t.capacity) % t.capacity = e := by
      rw [Nat.add_comm start _, Nat.mod_add_mod, Nat.add_comm,
        show start + (t.capacity + e - start) = t.capacity + e by omega,
        Nat.add_mod_left, Nat.mod_eq_of_lt he]
    rw [heq]
  · exact hek
  · exact hev

/-! ## Table-level find/get/delete specifications -/

theorem numDefined_zero_cap {α : Type} (t : Table α) (h : t.capacity = 0) : numDefined t = 0 := by
  unfold numDefined
  rw [h]
  rfl

theorem cap_pos_of_count_pos {α : Type} (t : Table α) (htwf : TWF t) (h : t.count ≠ 0) :
    0 < t.capacity := by
  rcases Nat.eq_zero_or_pos t.capacity with h0 | hpos
  · exact absurd (htwf.countDef.trans (numDefined_zero_cap t h0)) h
  · exact hpos

theorem twf_cap_pow {α : Type} (t : Table α) (htwf : TWF t) (hpos : 0 < t.capacity) :
    ∃ m, 3 ≤ m ∧ t.capacity = 2^m := by
  rcases htwf.capPow with h0 | ⟨m, _, hm3, hm⟩
  · omega
  · exact ⟨m, hm3, hm⟩

theorem startIdxOf_lt {α : Type} (t : Table α) (h : Int) (m : Nat) (hm : t.capacity = 2^m)
    (hpos : 0 < t.capacity) : startIdxOf t h < t.capacity := by
  unfold startIdxOf probeStart
  rw [and_mask_mod _ _ m hm]
  exact Nat.mod_lt _ hpos

theorem count_zero_no_keys {α : Type} (t : Table α) (htwf : TWF t) (h : t.count = 0) :
    ∀ k, ¬ HasKeyT t k := by
  intro k ⟨i, hi, hki⟩
  have hcount : (List.range t.capacity).countP (fun i => (valAt t i).isSome) = 0 := by
    have hcd := htwf.countDef
    unfold numDefined at hcd
    rw [← List.countP_eq_length_filter] at hcd
    omega
  have hvx := List.countP_eq_zero.mp hcount i (List.mem_range.mpr hi)
  have hvs := htwf.keyVal i hi (by rw [hki]; simp)
  simp at hvx
  rw [hvx] at hvs
  simp at hvs

/-- The fully packaged facts about a successful #find probe. -/
theorem tfind_spec {α : Type} (t : Table α) (k : LoxStr) (htwf : TWF t)
    (hpos : 0 < t.capacity) :
    ∃ i, tfind t.keys t.values (t.capacity - 1) k = some i ∧ i < t.capacity ∧
      (keyAt t i = none ∨ keyAt t i = some k) ∧
      ∃ d, d < t.capacity ∧ i = (startIdxOf t k.hash + d) % t.capacity ∧
        (∀ j, j < d → probePass t.keys t.values k ((startIdxOf t k.hash + j) % t.capacity)) ∧
        (keyAt t i = some k ∨ (keyAt t i = none ∧
          ∃ de, d ≤ de ∧ de < t.capacity ∧
            (t.keys.getD ((startIdxOf t k.hash + de) % t.capacity) none).isNone ∧
            (t.values.getD ((startIdxOf t k.hash + de) % t.capacity) none).isNone ∧
            ∀ j, j < de → probePass t.keys t.values k
              ((startIdxOf t k.hash + j) % t.capacity))) := by
  obtain ⟨m, hm3, hm⟩ := twf_cap_pow t htwf hpos
  have hstart : startIdxOf t k.hash < t.capacity := startIdxOf_lt t k.hash m hm hpos
  have hfree := twf_free_exists t htwf hpos (startIdxOf t k.hash) hstart
  obtain ⟨i, hfind, hres⟩ := findLoop_success t.keys t.values t.capacity m k hm hpos
    t.capacity (startIdxOf t k.hash) none hstart (by intro t1 ht1; cases ht1) hfree
  have hfind2 : tfind t.keys t.values (t.capacity - 1) k = some i := by
    unfold tfind
    rw [htwf.ksize]
    unfold startIdxOf at hfind
    exact hfind
  have h00 : (startIdxOf t k.hash + 0) % t.capacity = startIdxOf t k.hash := by
    rw [Nat.add_zero, Nat.mod_eq_of_lt hstart]
  have hfind3 : findLoop t.keys t.values (t.capacity - 1) k none
      ((startIdxOf t k.hash + 0) % t.capacity) t.capacity = some i := by
    rw [h00]
    exact hfind
  obtain ⟨d, hd, hieq, hpre, hpath⟩ := findLoop_path t.keys t.values t.capacity m k hm hpos
    (startIdxOf t k.hash) t.capacity 0 none i (by omega) (by intro t1 ht1; cases ht1) hfind3
  refine ⟨i, hfind2, by rw [hieq]; exact Nat.mod_lt _ hpos, ?_, d, by omega, hieq, hpre, ?_⟩
  · rcases hres with hn | hs
    · exact Or.inl (Option.isNone_iff_eq_none.mp hn)
    · exact Or.inr hs
  · rcases hpath with hl | ⟨hn, de, hde1, hde2, hde3, hde4, hde5⟩
    · exact Or.inl hl
    · exact Or.inr ⟨Option.isNone_iff_eq_none.mp hn, de, hde1, by omega, hde3, hde4, hde5⟩

/-- If the probe for k lands on a keyless slot, k is stored nowhere: a
stored key is probe-reachable, which would have stopped the probe at it. -/
theorem tfind_miss_not_haskey {α : Type} (t : Table α) (k : LoxStr) (htwf : TWF t)
    (hpos : 0 < t.capacity) (i : Nat)
    (hfind : tfind t.keys t.values (t.capacity - 1) k = some i)
    (hnone : keyAt t i = none) : ¬ HasKeyT t k := by
  obtain ⟨i2, hfind2, hlt2, _, d, hd, hieq, hpre, hpath⟩ := tfind_spec t k htwf hpos
  have hii : i2 = i := by
    rw [hfind] at hfind2
    exact (Option.some_inj.mp hfind2).symm
  subst hii
  rcases hpath with hl | ⟨_, de, hdele, hdelt, hkde, hvde, hprede⟩
  · rw [hnone] at hl
    cases hl
  · rintro ⟨jk, hjk, hkey⟩
    obtain ⟨dk, hdk, hjkeq, hreachpre⟩ := htwf.reach jk hjk k hkey
    rcases Nat.lt_trichotomy dk de with hlt | heq | hgt
    · have hp := hprede dk hlt
      unfold probePass at hp
      apply hp.2
      unfold probeAt at hjkeq
      rw [← hjkeq]
      exact hkey
    · subst heq
      unfold probeAt at hjkeq
      rw [← hjkeq] at hkde
      unfold keyAt at hkey
      rw [hkey] at hkde
      simp at hkde
    · have hnf := hreachpre de hgt
      apply hnf
      unfold slotFree keyAt valAt probeAt
      exact ⟨hkde, hvde⟩

/-- Table.get is total on well-formed tables and returns undefined for
absent keys. -/
theorem get_spec {α : Type} (t : Table α) (k : LoxStr) (htwf : TWF t) :
    ∃ o, t.get k = some o ∧ (¬ HasKeyT t k → o = none) := by
  by_cases hc : t.count = 0
  · exact ⟨none, by unfold Table.get; rw [if_pos hc], fun _ => rfl⟩
  · have hpos := cap_pos_of_count_pos t htwf hc
    obtain ⟨i, hfind, hlt, hnm, _⟩ := tfind_spec t k htwf hpos
    rcases hnm with hn | hs
    · refine ⟨none, ?_, fun _ => rfl⟩
      have hni : (t.keys.getD i none).isNone := by
        unfold keyAt at hn
        rw [hn]
        rfl
      have hgeq : t.get k = if (t.keys.getD i none).isNone then some none
          else some (t.values.getD i none) := by
        unfold Table.get
        rw [if_neg hc, hfind]
      rw [hgeq, if_pos hni]
    · refine ⟨t.values.getD i none, ?_, ?_⟩
      · have hni : ¬ (t.keys.getD i none).isNone := by
          unfold keyAt at hs
          rw [hs]
          simp
        have hgeq : t.get k = if (t.keys.getD i none).isNone then some none
            else some (t.values.getD i none) := by
          unfold Table.get
          rw [if_neg hc, hfind]
        rw [hgeq, if_neg hni]
      · intro habs
        exact absurd ⟨i, hlt, hs⟩ habs

/-- Table.delete is total on well-formed tables, preserves well-formedness
(tombstoning: the key goes, the value stays), removes the key, and keeps
every other key. -/
theorem delete_spec {α : Type} (t : Table α) (k : LoxStr) (htwf : TWF t) :
    ∃ r, t.delete k = some r ∧ TWF r.2 ∧ ¬ HasKeyT r.2 k ∧
      (∀ k1, k1 ≠ k → (HasKeyT r.2 k1 ↔ HasKeyT t k1)) ∧
      r.2.capacity = t.capacity := by
  by_cases hc : t.count = 0
  · refine ⟨(false, t), ?_, htwf, count_zero_no_keys t htwf hc k, fun _ _ => Iff.rfl, rfl⟩
    unfold Table.delete
    rw [if_pos hc]
  · have hpos := cap_pos_of_count_pos t htwf hc
    obtain ⟨i, hfind, hlt, hnm, _⟩ := tfind_spec t k htwf hpos
    rcases hnm with hn | hs
    · refine ⟨(false, t), ?_, htwf, tfind_miss_not_haskey t k htwf hpos i hfind hn,
        fun _ _ => Iff.rfl, rfl⟩
      have hni : (t.keys.getD i none).isNone := by
        unfold keyAt at hn
        rw [hn]
        rfl
      have hdeq : t.delete k = if (t.keys.getD i none).isNone then some (false, t)
          else some (true, { t with keys := t.keys.setD i none }) := by
        unfold Table.delete
        rw [if_neg hc, hfind]
      rw [hdeq, if_pos hni]
    · set t1 : Table α := { t with keys := t.keys.setD i none } with ht1
      have hkeyAt1 : ∀ j, j ≠ i → keyAt t1 j = keyAt t j := by
        intro j hj
        show (t.keys.setD i none).getD j none = keyAt t j
        rw [getD_setD_ne _ _ _ _ _ (fun he => hj he.symm)]
        rfl
      have hkeyAti : keyAt t1 i = none := by
        show (t.keys.setD i none).getD i none = none
        rw [getD_setD_eq _ _ _ _ (by rw [htwf.ksize]; exact hlt)]
      have hvalAt : ∀ j, valAt t1 j = valAt t j := fun j => rfl
      have hvi : (valAt t i).isSome := htwf.keyVal i hlt (by rw [hs]; simp)
      have hnotfree : ∀ x, ¬ slotFree t x → ¬ slotFree t1 x := by
        intro x hx hfree1
        by_cases hxi : x = i
        · subst hxi
          have := hfree1.2
          rw [hvalAt] at this
          rw [Option.isNone_iff_eq_none] at this
          rw [this] at hvi
          simp at hvi
        · exact hx ⟨by rw [← hkeyAt1 x hxi]; exact hfree1.1, by rw [← hvalAt x]; exact hfree1.2⟩
      have htwf1 : TWF t1 := by
        refine ⟨?_, htwf.vsize, ?_, htwf.load, ?_, ?_, ?_, ?_⟩
        · show (t.keys.setD i none).size = t.capacity
          rw [Array.size_setD]
          exact htwf.ksize
        · exact htwf.capPow
        · exact htwf.countDef
        · intro j hj hks
          by_cases hji : j = i
          · subst hji
            rw [hkeyAti] at hks
            simp at hks
          · rw [hvalAt]
            exact htwf.keyVal j hj (by rw [← hkeyAt1 j hji]; exact hks)
        · intro j1 hj1 j2 hj2 k1 hk1 hk2
          by_cases h1i : j1 = i
          · subst h1i
            rw [hkeyAti] at hk1
            cases hk1
          · by_cases h2i : j2 = i
            · subst h2i
              rw [hkeyAti] at hk2
              cases hk2
            · exact htwf.nodup j1 hj1 j2 hj2 k1
                (by rw [← hkeyAt1 j1 h1i]; exact hk1)
                (by rw [← hkeyAt1 j2 h2i]; exact hk2)
        · intro j hj k1 hk1
          by_cases hji : j = i
          · subst hji
            rw [hkeyAti] at hk1
            cases hk1
          · obtain ⟨dk, hdk, hjeq, hprek⟩ := htwf.reach j hj k1 (by
              rw [← hkeyAt1 j hji]; exact hk1)
            exact ⟨dk, hdk, hjeq, fun j2 hj2 => hnotfree _ (hprek j2 hj2)⟩
      refine ⟨(true, t1), ?_, htwf1, ?_, ?_, rfl⟩
      · have hni : ¬ (t.keys.getD i none).isNone := by
          unfold keyAt at hs
          rw [hs]
          simp
        have hdeq : t.delete k = if (t.keys.getD i none).isNone then some (false, t)
            else some (true, { t with keys := t.keys.setD i none }) := by
          unfold Table.delete
          rw [if_neg hc, hfind]
        rw [hdeq, if_neg hni]
      · rintro ⟨j, hj, hk⟩
        by_cases hji : j = i
        · subst hji
          rw [hkeyAti] at hk
          cases hk
        · rw [hkeyAt1 j hji] at hk
          exact hji (htwf.nodup j hj i hlt k hk hs)
      · intro k1 hk1
        constructor
        · rintro ⟨j, hj, hk⟩
          by_cases hji : j = i
          · subst hji
            rw [hkeyAti] at hk
            cases hk
          · exact ⟨j, hj, by rw [← hkeyAt1 j hji]; exact hk⟩
        · rintro ⟨j, hj, hk⟩
          by_cases hji : j = i
          · subst hji
            rw [hs] at hk
            exact absurd (Option.some_inj.mp hk).symm hk1
          · exact ⟨j, hj, by rw [hkeyAt1 j hji]; exact hk⟩

/-! ## Grow: the reinsertion fold -/

theorem exists_val_none {α : Type} (values1 : Array (Option α)) (capN : Nat)
    (hcnt : (List.range capN).countP (fun x => (values1.getD x none).isSome) < capN) :
    ∃ e, e < capN ∧ (values1.getD e none).isNone := by
  by_contra hall
  push_neg at hall
  have hlen : (List.range capN).countP (fun x => (values1.getD x none).isSome)
      = (List.range capN).length := by
    rw [List.countP_eq_length]
    intro x hx
    rw [List.mem_range] at hx
    have hnv := hall x hx
    cases hval : values1.getD x none with
    | none =>
      rw [hval] at hnv
      simp at hnv
    | some v => simp
  rw [List.length_range] at hlen
  omega

theorem exists_step_to (capN start e : Nat) (hstart : start < capN) (he : e < capN) :
    ∃ d, d < capN ∧ (start + d) % capN = e := by
  refine ⟨(capN + e - start) % capN, Nat.mod_lt _ (by omega), ?_⟩
  rw [Nat.add_comm start _, Nat.mod_add_mod, Nat.add_comm,
    show start + (capN + e - start) = capN + e by omega,
    Nat.add_mod_left, Nat.mod_eq_of_lt he]

theorem countP_range_mono (p : Nat → Bool) : ∀ n nn : Nat, n ≤ nn →
    (List.range n).countP p ≤ (List.range nn).countP p := by
  intro n nn
  induction nn with
  | zero =>
    intro h
    have hn0 : n = 0 := Nat.le_zero.mp h
    rw [hn0]
  | succ m ih =>
    intro h
    rcases Nat.lt_or_ge n (m+1) with h2 | h2
    · have := ih (by omega)
      rw [List.range_succ, List.countP_append]
      omega
    · have : n = m + 1 := by omega
      subst this
      exact le_refl _

theorem walk_ne (capN s j d : Nat) (hj : j < d) (hd : d < capN) :
    (s + j) % capN ≠ (s + d) % capN := by
  intro heq
  have hle : s + j ≤ s + d := by omega
  have hdvd := (Nat.modEq_iff_dvd' hle).mp heq
  rw [show s + d - (s + j) = d - j by omega] at hdvd
  have := Nat.le_of_dvd (by omega) hdvd
  omega

theorem growStep_some {α : Type} (t : Table α) (mask : Nat)
    (g : Array (Option LoxStr) × Array (Option α) × Nat) (i : Nat) :
    growStep t mask (some g) i =
      match t.keys.getD i none with
      | none => some g
      | some key =>
        match tfind g.1 g.2.1 mask key with
        | none => none
        | some index =>
          some (g.1.setD index (some key),
                g.2.1.setD index (t.values.getD i none), g.2.2 + 1) := by
  obtain ⟨gk, gv, gc⟩ := g
  cases hk : t.keys.getD i none with
  | none => simp [growStep, hk]
  | some key =>
    cases hf : tfind gk gv mask key with
    | none => simp [growStep, hk, hf]
    | some index => simp [growStep, hk, hf]

theorem grow_fold {α : Type} (t : Table α) (capNew mN : Nat) (htwf : TWF t)
    (hcapN : capNew = 2^mN) (hroom : numKeys t < capNew) :
    ∀ n, n ≤ t.capacity →
    ∃ g, (List.range n).foldl (growStep t (capNew - 1))
        (some (Array.mkArray capNew none, Array.mkArray capNew none, 0)) = some g ∧
      GrowInv t capNew n g := by
  have hposN : 0 < capNew := by omega
  have hmk : ∀ x, ((Array.mkArray capNew (none : Option LoxStr)).getD x none) = none := by
    intro x
    unfold Array.getD
    split_ifs with h
    · simp [Array.getElem_mkArray]
    · rfl
  have hmkv : ∀ x, ((Array.mkArray capNew (none : Option α)).getD x none) = none := by
    intro x
    unfold Array.getD
    split_ifs with h
    · simp [Array.getElem_mkArray]
    · rfl
  intro n
  induction n with
  | zero =>
    intro _
    refine ⟨_, rfl, ?_, ?_, ?_, ?_, ?_, ?_, ?_, ?_, ?_⟩
    · exact Array.size_mkArray _ _
    · exact Array.size_mkArray _ _
    · rfl
    · intro x _
      rw [hmk x, hmkv x]
      simp
    · symm
      rw [List.countP_eq_zero]
      intro x _
      rw [hmkv x]
      simp
    · intro x _ k1 hk1
      rw [hmk x] at hk1
      cases hk1
    · intro i hi
      omega
    · intro x1 _ x2 _ k1 hk1
      rw [hmk x1] at hk1
      cases hk1
    · intro x _ k1 hk1
      rw [hmk x] at hk1
      cases hk1
  | succ n ih =>
    intro hn1
    obtain ⟨g, hfold, hsz1, hsz2, hcnt, hiff, hdefcnt, hprov, hcompl, hnodup, hreach⟩ :=
      ih (by omega)
    have hn : n < t.capacity := by omega
    rw [List.range_succ, List.foldl_append, hfold, List.foldl_cons, List.foldl_nil]
    cases hkn : t.keys.getD n none with
    | none =>
      refine ⟨g, ?_, hsz1, hsz2, ?_, hiff, hdefcnt, ?_, ?_, hnodup, hreach⟩
      · simp only [growStep_some, hkn]
      · rw [List.range_succ, List.countP_append, hcnt]
        have : (keyAt t n).isSome = false := by
          unfold keyAt
          rw [hkn]
          rfl
        simp [List.countP_cons, this]
      · intro x hx k1 hk1
        obtain ⟨i, hi, hki⟩ := hprov x hx k1 hk1
        exact ⟨i, by omega, hki⟩
      · intro i hi k1 hk1
        rcases Nat.lt_or_ge i n with h2 | h2
        · exact hcompl i h2 k1 hk1
        · have : i = n := by omega
          subst this
          unfold keyAt at hk1
          rw [hkn] at hk1
          cases hk1
    | some key =>
      -- find a slot in the partial arrays
      have hstart : probeStart key.hash (capNew - 1) < capNew := by
        unfold probeStart
        rw [and_mask_mod _ _ mN hcapN]
        exact Nat.mod_lt _ hposN
      have hcntlt : (List.range capNew).countP (fun x => (g.2.1.getD x none).isSome) < capNew := by
        rw [← hdefcnt, hcnt]
        calc (List.range n).countP (fun i => (keyAt t i).isSome)
            ≤ (List.range t.capacity).countP (fun i => (keyAt t i).isSome) :=
              countP_range_mono _ n t.capacity (by omega)
          _ = numKeys t := by
              unfold numKeys
              rw [← List.countP_eq_length_filter]
          _ < capNew := hroom
      obtain ⟨e, he, hev⟩ := exists_val_none g.2.1 capNew hcntlt
      have hek : (g.1.getD e none).isNone := (hiff e he).mpr hev
      obtain ⟨de0, hde0, hde0eq⟩ :=
        exists_step_to capNew (probeStart key.hash (capNew - 1)) e hstart he
      obtain ⟨x, hfindx, hresx⟩ := findLoop_success g.1 g.2.1 capNew mN key hcapN hposN
        g.1.size (probeStart key.hash (capNew - 1)) none hstart
        (by intro t1 ht1; cases ht1)
        ⟨de0, by rw [hsz1]; omega, by rw [hde0eq]; exact hek, by rw [hde0eq]; exact hev⟩
      have hfindx2 : tfind g.1 g.2.1 (capNew - 1) key = some x := by
        unfold tfind
        exact hfindx
      -- the probe cannot have matched: key comes from unprocessed slot n
      have hxnone : g.1.getD x none = none := by
        rcases hresx with h1 | h1
        · exact Option.isNone_iff_eq_none.mp h1
        · exfalso
          have hxlt : x < capNew := by
            by_contra hge
            have : g.1.getD x none = none := by
              unfold Array.getD
              split_ifs with h2
              · exfalso
                rw [hsz1] at h2
                exact hge h2
              · rfl
            rw [this] at h1
            cases h1
          obtain ⟨i, hi, hki⟩ := hprov x hxlt key h1
          have : i = n := htwf.nodup i (by omega) n hn key hki (by unfold keyAt; rw [hkn])
          omega
      have hxlt : x < capNew := by
        by_contra hge
        have h0 : g.1.getD x none = none := by
          unfold Array.getD
          split_ifs with h2
          · rw [hsz1] at h2; omega
          · rfl
        -- fine: x may be out of range only if probe returned junk; but the path lemma pins it
        obtain ⟨d, hd, hxeq, _⟩ := findLoop_path g.1 g.2.1 capNew mN key hcapN hposN
          (probeStart key.hash (capNew - 1)) g.1.size 0 none x (by omega)
          (by intro t1 ht1; cases ht1)
          (by
            rw [show (probeStart key.hash (capNew - 1) + 0) % capNew =
              probeStart key.hash (capNew - 1) by
                rw [Nat.add_zero, Nat.mod_eq_of_lt hstart]]
            exact hfindx)
        rw [hxeq] at hge
        exact hge (Nat.mod_lt _ hposN)
      obtain ⟨d, hd, hxeq, hpre, _⟩ := findLoop_path g.1 g.2.1 capNew mN key hcapN hposN
        (probeStart key.hash (capNew - 1)) g.1.size 0 none x (by omega)
        (by intro t1 ht1; cases ht1)
        (by
          rw [show (probeStart key.hash (capNew - 1) + 0) % capNew =
            probeStart key.hash (capNew - 1) by
              rw [Nat.add_zero, Nat.mod_eq_of_lt hstart]]
          exact hfindx)
      have hdlt : d < capNew := by
        rw [hsz1] at hd
        omega
      -- the value of the processed slot is defined
      have hvn : (valAt t n).isSome :=
        htwf.keyVal n hn (by unfold keyAt; rw [hkn]; simp)
      have hxvnone : (g.2.1.getD x none).isNone := (hiff x hxlt).mp (by rw [hxnone]; rfl)
      refine ⟨(g.1.setD x (some key), g.2.1.setD x (t.values.getD n none), g.2.2 + 1),
        ?_, ?_, ?_, ?_, ?_, ?_, ?_, ?_, ?_, ?_⟩
      · simp only [growStep_some, hkn, hfindx2]
      · rw [Array.size_setD]; exact hsz1
      · rw [Array.size_setD]; exact hsz2
      · rw [List.range_succ, List.countP_append, hcnt]
        have hsome : (keyAt t n).isSome = true := by
          unfold keyAt
          rw [hkn]
          rfl
        simp [List.countP_cons, hsome]
      · intro y hy
        by_cases hyx : y = x
        · subst hyx
          rw [getD_setD_eq _ _ _ _ (by rw [hsz1]; exact hxlt),
            getD_setD_eq _ _ _ _ (by rw [hsz2]; exact hxlt)]
          unfold valAt at hvn
          constructor
          · intro h2
            simp at h2
          · intro h2
            rw [Option.isNone_iff_eq_none] at h2
            rw [h2] at hvn
            simp at hvn
        · rw [getD_setD_ne _ _ _ _ _ (fun he2 => hyx he2.symm),
            getD_setD_ne _ _ _ _ _ (fun he2 => hyx he2.symm)]
          exact hiff y hy
      · show g.2.2 + 1 = (List.range capNew).countP
          (fun y => ((g.2.1.setD x (t.values.getD n none)).getD y none).isSome)
        have heq := countP_point capNew x hxlt
          (fun y => (g.2.1.getD y none).isSome)
          (fun y => ((g.2.1.setD x (t.values.getD n none)).getD y none).isSome)
          (fun j hj => by
            show (g.2.1.getD j none).isSome
                = ((g.2.1.setD x (t.values.getD n none)).getD j none).isSome
            rw [getD_setD_ne _ _ _ _ _ (fun he2 => hj he2.symm)])
        have hfx : ((fun y => (g.2.1.getD y none).isSome) x) = false := by
          show (g.2.1.getD x none).isSome = false
          rw [Option.isNone_iff_eq_none] at hxvnone
          rw [hxvnone]
          rfl
        have hgx : ((fun y => ((g.2.1.setD x (t.values.getD n none)).getD y none).isSome) x)
            = true := by
          show ((g.2.1.setD x (t.values.getD n none)).getD x none).isSome = true
          rw [getD_setD_eq _ _ _ _ (by rw [hsz2]; exact hxlt)]
          unfold valAt at hvn
          exact hvn
        rw [hfx, hgx] at heq
        rw [show (if (false : Bool) = true then 1 else 0) = 0 from rfl,
          show (if (true : Bool) = true then 1 else 0) = 1 from rfl] at heq
        omega
      · intro y hy k1 hk1
        by_cases hyx : y = x
        · subst hyx
          rw [getD_setD_eq _ _ _ _ (by rw [hsz1]; exact hxlt)] at hk1
          have : k1 = key := by injection hk1 with h2; rw [h2]
          subst this
          exact ⟨n, by omega, by unfold keyAt; rw [hkn]⟩
        · rw [getD_setD_ne _ _ _ _ _ (fun he2 => hyx he2.symm)] at hk1
          obtain ⟨i, hi, hki⟩ := hprov y hy k1 hk1
          exact ⟨i, by omega, hki⟩
      · intro i hi k1 hk1
        rcases Nat.lt_or_ge i n with h2 | h2
        · obtain ⟨y, hy, hky⟩ := hcompl i h2 k1 hk1
          by_cases hyx : y = x
          · subst hyx
            rw [hxnone] at hky
            cases hky
          · exact ⟨y, hy, by
              rw [getD_setD_ne _ _ _ _ _ (fun he2 => hyx he2.symm)]
              exact hky⟩
        · have : i = n := by omega
          subst this
          unfold keyAt at hk1
          rw [hkn] at hk1
          have : k1 = key := by injection hk1 with h2; rw [h2]
          subst this
          exact ⟨x, hxlt, by rw [getD_setD_eq _ _ _ _ (by rw [hsz1]; exact hxlt)]⟩
      · intro y1 hy1 y2 hy2 k1 hk1 hk2
        by_cases h1x : y1 = x <;> by_cases h2x : y2 = x
        · rw [h1x, h2x]
        · exfalso
          subst h1x
          rw [getD_setD_eq _ _ _ _ (by rw [hsz1]; exact hxlt)] at hk1
          have hkk : k1 = key := by injection hk1 with h2; rw [h2]
          subst hkk
          rw [getD_setD_ne _ _ _ _ _ (fun he2 => h2x he2.symm)] at hk2
          obtain ⟨i, hi, hki⟩ := hprov y2 hy2 k1 hk2
          have : i = n := htwf.nodup i (by omega) n hn k1 hki (by unfold keyAt; rw [hkn])
          omega
        · exfalso
          subst h2x
          rw [getD_setD_eq _ _ _ _ (by rw [hsz1]; exact hxlt)] at hk2
          have hkk : k1 = key := by injection hk2 with h2; rw [h2]
          subst hkk
          rw [getD_setD_ne _ _ _ _ _ (fun he2 => h1x he2.symm)] at hk1
          obtain ⟨i, hi, hki⟩ := hprov y1 hy1 k1 hk1
          have : i = n := htwf.nodup i (by omega) n hn k1 hki (by unfold keyAt; rw [hkn])
          omega
        · rw [getD_setD_ne _ _ _ _ _ (fun he2 => h1x he2.symm)] at hk1
          rw [getD_setD_ne _ _ _ _ _ (fun he2 => h2x he2.symm)] at hk2
          exact hnodup y1 hy1 y2 hy2 k1 hk1 hk2
      · intro y hy k1 hk1
        have hmono : ∀ z, ¬ ((g.1.getD z none).isNone ∧ (g.2.1.getD z none).isNone) →
            ¬ (((g.1.setD x (some key)).getD z none).isNone ∧
              ((g.2.1.setD x (t.values.getD n none)).getD z none).isNone) := by
          intro z hz hcon
          by_cases hzx : z = x
          · subst hzx
            rw [getD_setD_eq _ _ _ _ (by rw [hsz1]; exact hxlt)] at hcon
            simp at hcon
          · rw [getD_setD_ne _ _ _ _ _ (fun he2 => hzx he2.symm),
              getD_setD_ne _ _ _ _ _ (fun he2 => hzx he2.symm)] at hcon
            exact hz hcon
        by_cases hyx : y = x
        · subst hyx
          rw [getD_setD_eq _ _ _ _ (by rw [hsz1]; exact hxlt)] at hk1
          have hkk : k1 = key := by injection hk1 with h2; rw [h2]
          subst hkk
          refine ⟨d, hdlt, hxeq, ?_⟩
          intro j hj
          apply hmono
          have hp := hpre j hj
          unfold probePass at hp
          exact hp.1
        · rw [getD_setD_ne _ _ _ _ _ (fun he2 => hyx he2.symm)] at hk1
          obtain ⟨d1, hd1, hyeq, hpre1⟩ := hreach y hy k1 hk1
          exact ⟨d1, hd1, hyeq, fun j hj => hmono _ (hpre1 j hj)⟩

/-- `Table.#grow` succeeds on a well-formed table when the new capacity is a
power of two ≥ 8 that respects the load factor for the live keys; the result
is well-formed, holds exactly the keys of the original (tombstones dropped),
and its count is the number of live keys. -/
theorem grow_spec {α : Type} (t : Table α) (capNew mN : Nat) (htwf : TWF t)
    (hcapN : capNew = 2^mN) (hm3 : 3 ≤ mN) (hload4 : 4 * numKeys t ≤ 3 * capNew) :
    ∃ t1, t.grow capNew = some t1 ∧ TWF t1 ∧ t1.capacity = capNew ∧
      t1.count = numKeys t ∧ (∀ k1, HasKeyT t1 k1 ↔ HasKeyT t k1) := by
  have hposN : 0 < capNew := by rw [hcapN]; exact Nat.pos_pow_of_pos mN (by omega)
  have hroom : numKeys t < capNew := by omega
  obtain ⟨g, hfold, hsz1, hsz2, hcnt, hiff, hdefcnt, hprov, hcompl, hnodup, hreach⟩ :=
    grow_fold t capNew mN htwf hcapN hroom t.capacity (le_refl _)
  have hcount : g.2.2 = numKeys t := by
    rw [hcnt]
    unfold numKeys
    rw [← List.countP_eq_length_filter]
  refine ⟨⟨g.2.2, capNew, g.1, g.2.1⟩, ?_, ?_, rfl, hcount, ?_⟩
  · unfold Table.grow
    rw [hfold]
    rfl
  · refine ⟨hsz1, hsz2, ?_, ?_, ?_, ?_, ?_, ?_⟩
    · refine Or.inr ⟨mN, ?_, hm3, hcapN⟩
      rw [hcapN]
      exact Nat.le_of_lt (Nat.lt_two_pow mN)
    · show 4 * g.2.2 ≤ 3 * capNew
      omega
    · show g.2.2 = numDefined ⟨g.2.2, capNew, g.1, g.2.1⟩
      unfold numDefined
      rw [← List.countP_eq_length_filter]
      exact hdefcnt
    · intro i hi hk
      have hk2 : (g.1.getD i none).isSome := hk
      show (g.2.1.getD i none).isSome
      cases hv : g.2.1.getD i none with
      | none =>
        exfalso
        have hkn := (hiff i hi).mpr (by rw [hv]; rfl)
        rw [Option.isNone_iff_eq_none] at hkn
        rw [hkn] at hk2
        cases hk2
      | some v => rfl
    · intro i hi j hj k hki hkj
      exact hnodup i hi j hj k hki hkj
    · intro i hi k hk
      obtain ⟨d, hd, hieq, hpre⟩ := hreach i hi k hk
      refine ⟨d, hd, hieq, ?_⟩
      intro j hj hfree
      exact hpre j hj ⟨hfree.1, hfree.2⟩
  · intro k1
    constructor
    · rintro ⟨i, hi, hki⟩
      obtain ⟨i0, hi0, hki0⟩ := hprov i hi k1 hki
      exact ⟨i0, hi0, hki0⟩
    · rintro ⟨i, hi, hki⟩
      obtain ⟨x, hx, hkx⟩ := hcompl i hi k1 hki
      exact ⟨x, hx, hkx⟩

/-- numDefined as a countP. -/
theorem numDefined_countP {α : Type} (t : Table α) :
    numDefined t = (List.range t.capacity).countP (fun i => (valAt t i).isSome) := by
  unfold numDefined
  rw [← List.countP_eq_length_filter]

/-- numKeys as a countP. -/
theorem numKeys_countP {α : Type} (t : Table α) :
    numKeys t = (List.range t.capacity).countP (fun i => (keyAt t i).isSome) := by
  unfold numKeys
  rw [← List.countP_eq_length_filter]

/-- Unfolding `Table.set` once the grow stage is resolved. -/
theorem set_grown {α : Type} (t t1 : Table α) (key : LoxStr) (value : α)
    (hg : (if 4 * (t.count + 1) > 3 * t.capacity then
        t.grow (if t.capacity < 8 then 8 else t.capacity * 2)
      else some t) = some t1) :
    t.set key value =
      match tfind t1.keys t1.values (t1.capacity - 1) key with
      | none => none
      | some index =>
        some ((t1.keys.getD index none).isNone,
          { (if (t1.keys.getD index none).isNone then
              { t1 with keys := t1.keys.setD index (some key),
                        count := t1.count +
                          (if (t1.values.getD index none).isNone then 1 else 0) }
            else t1) with
            values := (if (t1.keys.getD index none).isNone then
              { t1 with keys := t1.keys.setD index (some key),
                        count := t1.count +
                          (if (t1.values.getD index none).isNone then 1 else 0) }
            else t1).values.setD index (some value) }) := by
  unfold Table.set
  rw [hg]

/-- Unfolding `Table.set` once both the grow stage and the probe are
resolved. -/
theorem set_found {α : Type} (t t1 : Table α) (key : LoxStr) (value : α) (i : Nat)
    (hg : (if 4 * (t.count + 1) > 3 * t.capacity then
        t.grow (if t.capacity < 8 then 8 else t.capacity * 2)
      else some t) = some t1)
    (hf : tfind t1.keys t1.values (t1.capacity - 1) key = some i) :
    t.set key value =
      some ((t1.keys.getD i none).isNone,
        { (if (t1.keys.getD i none).isNone then
            { t1 with keys := t1.keys.setD i (some key),
                      count := t1.count +
                        (if (t1.values.getD i none).isNone then 1 else 0) }
          else t1) with
          values := (if (t1.keys.getD i none).isNone then
            { t1 with keys := t1.keys.setD i (some key),
                      count := t1.count +
                        (if (t1.values.getD i none).isNone then 1 else 0) }
          else t1).values.setD i (some value) }) := by
  rw [set_grown t t1 key value hg, hf]

/-- The grow stage of `Table.set` always succeeds on a well-formed table and
leaves headroom for one insertion. -/
theorem set_stage1 {α : Type} (t : Table α) (htwf : TWF t) :
    ∃ t1, (if 4 * (t.count + 1) > 3 * t.capacity then
        t.grow (if t.capacity < 8 then 8 else t.capacity * 2)
      else some t) = some t1 ∧
      TWF t1 ∧ 4 * (t1.count + 1) ≤ 3 * t1.capacity ∧
      (∀ k1, HasKeyT t1 k1 ↔ HasKeyT t k1) := by
  have hknum := numKeys_le_numDefined t htwf.keyVal
  have hcd := htwf.countDef
  have hld := htwf.load
  by_cases hgc : 4 * (t.count + 1) > 3 * t.capacity
  · rcases htwf.capPow with hc0 | ⟨m, hmle, hm3, hmpow⟩
    · have hnd0 := numDefined_zero_cap t hc0
      have hcap8 : (if t.capacity < 8 then 8 else t.capacity * 2) = 8 := by
        rw [hc0]
        norm_num
      obtain ⟨t1, hgeq, htwf1, hcap1, hcnt1, hkeys1⟩ :=
        grow_spec t 8 3 htwf (by norm_num) (le_refl 3) (by omega)
      refine ⟨t1, ?_, htwf1, by omega, hkeys1⟩
      rw [if_pos hgc, hcap8, hgeq]
    · have hcap8 : 8 ≤ t.capacity := by
        rw [hmpow]
        calc (8:Nat) = 2^3 := by norm_num
          _ ≤ 2^m := Nat.pow_le_pow_right (by omega) hm3
      have hcapif : (if t.capacity < 8 then 8 else t.capacity * 2) = t.capacity * 2 := by
        rw [if_neg (by omega)]
      have hpow2 : t.capacity * 2 = 2^(m+1) := by
        rw [hmpow, Nat.pow_succ]
      obtain ⟨t1, hgeq, htwf1, hcap1, hcnt1, hkeys1⟩ :=
        grow_spec t (t.capacity * 2) (m+1) htwf hpow2 (by omega) (by omega)
      refine ⟨t1, ?_, htwf1, by omega, hkeys1⟩
      rw [if_pos hgc, hcapif, hgeq]
  · exact ⟨t, by rw [if_neg hgc], htwf, by omega, fun _ => Iff.rfl⟩

/-- `Table.set` is total on well-formed tables, preserves well-formedness,
stores the key, and leaves every other key's presence unchanged. -/
theorem set_spec {α : Type} (t : Table α) (key : LoxStr) (value : α) (htwf : TWF t) :
    ∃ r, t.set key value = some r ∧ TWF r.2 ∧ HasKeyT r.2 key ∧
      (∀ k1, k1 ≠ key → (HasKeyT r.2 k1 ↔ HasKeyT t k1)) ∧
      (r.1 = true ↔ ¬ HasKeyT t key) := by
  obtain ⟨t1, hgeq, htwf1, hins, hkeys1⟩ := set_stage1 t htwf
  have hpos1 : 0 < t1.capacity := by omega
  obtain ⟨i, hfind, hilt, hnm, d, hd, hieq, hpre, hpath⟩ := tfind_spec t1 key htwf1 hpos1
  have hisz : i < t1.keys.size := by rw [htwf1.ksize]; exact hilt
  have hivsz : i < t1.values.size := by rw [htwf1.vsize]; exact hilt
  rcases hnm with hnone | hsome
  · -- probe landed on an empty key slot: insert a new key
    have hni : (t1.keys.getD i none).isNone = true := by
      unfold keyAt at hnone
      rw [hnone]
      rfl
    have hmiss := tfind_miss_not_haskey t1 key htwf1 hpos1 i hfind hnone
    set tfin : Table α :=
      { t1 with keys := t1.keys.setD i (some key),
                count := t1.count + (if (t1.values.getD i none).isNone then 1 else 0),
                values := t1.values.setD i (some value) } with htfin
    have hstep : t.set key value = some (true, tfin) := by
      rw [set_found t t1 key value i hgeq hfind, hni]
      rfl
    have hkeyAt : ∀ j, j ≠ i → keyAt tfin j = keyAt t1 j := by
      intro j hj
      show (t1.keys.setD i (some key)).getD j none = keyAt t1 j
      rw [getD_setD_ne _ _ _ _ _ (fun he => hj he.symm)]
      rfl
    have hkeyAti : keyAt tfin i = some key := by
      show (t1.keys.setD i (some key)).getD i none = some key
      rw [getD_setD_eq _ _ _ _ hisz]
    have hvalAt : ∀ j, j ≠ i → valAt tfin j = valAt t1 j := by
      intro j hj
      show (t1.values.setD i (some value)).getD j none = valAt t1 j
      rw [getD_setD_ne _ _ _ _ _ (fun he => hj he.symm)]
      rfl
    have hvalAti : valAt tfin i = some value := by
      show (t1.values.setD i (some value)).getD i none = some value
      rw [getD_setD_eq _ _ _ _ hivsz]
    have hnotfree : ∀ x, ¬ slotFree t1 x → ¬ slotFree tfin x := by
      intro x hx hfree
      by_cases hxi : x = i
      · subst hxi
        have := hfree.1
        rw [hkeyAti] at this
        cases this
      · exact hx ⟨by rw [← hkeyAt x hxi]; exact hfree.1,
          by rw [← hvalAt x hxi]; exact hfree.2⟩
    have hnotfreei : ¬ slotFree tfin i := by
      intro hfree
      have := hfree.1
      rw [hkeyAti] at this
      cases this
    have hcap : tfin.capacity = t1.capacity := rfl
    have hcnt : tfin.count = t1.count + (if (t1.values.getD i none).isNone then 1 else 0) := rfl
    have hhask : HasKeyT tfin key := ⟨i, hilt, hkeyAti⟩
    have hothers : ∀ k1, k1 ≠ key → (HasKeyT tfin k1 ↔ HasKeyT t1 k1) := by
      intro k1 hk1
      constructor
      · rintro ⟨j, hj, hkj⟩
        by_cases hji : j = i
        · subst hji
          rw [hkeyAti] at hkj
          exact absurd (Option.some_inj.mp hkj).symm hk1
        · exact ⟨j, hj, by rw [← hkeyAt j hji]; exact hkj⟩
      · rintro ⟨j, hj, hkj⟩
        by_cases hji : j = i
        · subst hji
          rw [hnone] at hkj
          cases hkj
        · exact ⟨j, hj, by rw [hkeyAt j hji]; exact hkj⟩
    refine ⟨(true, tfin), hstep, ?_, hhask, fun k1 hk1 => (hothers k1 hk1).trans (hkeys1 k1),
      iff_of_true rfl (fun hcon => hmiss ((hkeys1 key).mpr hcon))⟩
    refine ⟨?_, ?_, ?_, ?_, ?_, ?_, ?_, ?_⟩
    · show (t1.keys.setD i (some key)).size = t1.capacity
      rw [Array.size_setD]
      exact htwf1.ksize
    · show (t1.values.setD i (some value)).size = t1.capacity
      rw [Array.size_setD]
      exact htwf1.vsize
    · show t1.capacity = 0 ∨ _
      exact htwf1.capPow
    · show 4 * (t1.count + (if (t1.values.getD i none).isNone then 1 else 0)) ≤ 3 * t1.capacity
      split_ifs <;> omega
    · show t1.count + (if (t1.values.getD i none).isNone then 1 else 0) = numDefined tfin
      have hnd : numDefined tfin
          = (List.range t1.capacity).countP (fun j => (valAt tfin j).isSome) := by
        rw [numDefined_countP]
      cases hv : (t1.values.getD i none).isNone with
      | true =>
        rw [if_pos rfl, hnd]
        have heq := countP_point t1.capacity i hilt
          (fun j => (valAt t1 j).isSome)
          (fun j => (valAt tfin j).isSome)
          (fun j hj => by
            show (valAt t1 j).isSome = (valAt tfin j).isSome
            rw [hvalAt j hj])
        have hfx : ((fun j => (valAt t1 j).isSome) i) = false := by
          show (valAt t1 i).isSome = false
          show (t1.values.getD i none).isSome = false
          rw [Option.isNone_iff_eq_none] at hv
          rw [hv]
          rfl
        have hgx : ((fun j => (valAt tfin j).isSome) i) = true := by
          show (valAt tfin i).isSome = true
          rw [hvalAti]
          rfl
        rw [hfx, hgx] at heq
        rw [show (if (false : Bool) = true then 1 else 0) = 0 from rfl,
          show (if (true : Bool) = true then 1 else 0) = 1 from rfl] at heq
        have hnd1 := numDefined_countP t1
        have hcd1 := htwf1.countDef
        omega
      | false =>
        rw [if_neg Bool.false_ne_true, hnd]
        have heq : (List.range t1.capacity).countP (fun j => (valAt tfin j).isSome)
            = (List.range t1.capacity).countP (fun j => (valAt t1 j).isSome) := by
          apply countP_congr_list
          intro x hx
          by_cases hxi : x = i
          · subst hxi
            show (valAt tfin x).isSome = (valAt t1 x).isSome
            rw [hvalAti]
            have : (t1.values.getD x none).isSome = true := by
              cases hv2 : t1.values.getD x none with
              | none => rw [hv2] at hv; cases hv
              | some v2 => rfl
            show (some value).isSome = (t1.values.getD x none).isSome
            rw [this]
            rfl
          · show (valAt tfin x).isSome = (valAt t1 x).isSome
            rw [hvalAt x hxi]
        have hnd1 := numDefined_countP t1
        have hcd1 := htwf1.countDef
        omega
    · intro j hj hk
      by_cases hji : j = i
      · subst hji
        show (valAt tfin j).isSome
        rw [hvalAti]
        rfl
      · show (valAt tfin j).isSome
        rw [hvalAt j hji]
        apply htwf1.keyVal j hj
        rw [← hkeyAt j hji]
        exact hk
    · intro j1 hj1 j2 hj2 k hk1 hk2
      by_cases h1i : j1 = i <;> by_cases h2i : j2 = i
      · rw [h1i, h2i]
      · exfalso
        subst h1i
        rw [hkeyAti] at hk1
        have : k = key := (Option.some_inj.mp hk1).symm
        subst this
        rw [hkeyAt j2 h2i] at hk2
        exact hmiss ⟨j2, hj2, hk2⟩
      · exfalso
        subst h2i
        rw [hkeyAti] at hk2
        have : k = key := (Option.some_inj.mp hk2).symm
        subst this
        rw [hkeyAt j1 h1i] at hk1
        exact hmiss ⟨j1, hj1, hk1⟩
      · rw [hkeyAt j1 h1i] at hk1
        rw [hkeyAt j2 h2i] at hk2
        exact htwf1.nodup j1 hj1 j2 hj2 k hk1 hk2
    · intro j hj k hk
      by_cases hji : j = i
      · subst hji
        rw [hkeyAti] at hk
        have : k = key := (Option.some_inj.mp hk).symm
        subst this
        refine ⟨d, hd, hieq, ?_⟩
        intro j2 hj2
        apply hnotfree
        intro hfree
        exact (hpre j2 hj2).1 ⟨hfree.1, hfree.2⟩
      · rw [hkeyAt j hji] at hk
        obtain ⟨d1, hd1, hjeq, hpre1⟩ := htwf1.reach j hj k hk
        exact ⟨d1, hd1, hjeq, fun j2 hj2 => hnotfree _ (hpre1 j2 hj2)⟩
  · -- the key is already stored at slot i: overwrite the value
    have hni : (t1.keys.getD i none).isNone = false := by
      unfold keyAt at hsome
      rw [hsome]
      rfl
    set tr : Table α := { t1 with values := t1.values.setD i (some value) } with htr
    have hstep : t.set key value = some (false, tr) := by
      rw [set_found t t1 key value i hgeq hfind, hni]
      rfl
    have hkeyAt : ∀ j, keyAt tr j = keyAt t1 j := fun j => rfl
    have hvalAt : ∀ j, j ≠ i → valAt tr j = valAt t1 j := by
      intro j hj
      show (t1.values.setD i (some value)).getD j none = valAt t1 j
      rw [getD_setD_ne _ _ _ _ _ (fun he => hj he.symm)]
      rfl
    have hvalAti : valAt tr i = some value := by
      show (t1.values.setD i (some value)).getD i none = some value
      rw [getD_setD_eq _ _ _ _ hivsz]
    have hvi : (valAt t1 i).isSome := htwf1.keyVal i hilt (by
      show (keyAt t1 i).isSome
      rw [hsome]
      rfl)
    have hnotfree : ∀ x, ¬ slotFree t1 x → ¬ slotFree tr x := by
      intro x hx hfree
      by_cases hxi : x = i
      · subst hxi
        have := hfree.2
        rw [hvalAti] at this
        cases this
      · exact hx ⟨hfree.1, by rw [← hvalAt x hxi]; exact hfree.2⟩
    have hhask : HasKeyT tr key := ⟨i, hilt, hsome⟩
    refine ⟨(false, tr), hstep, ?_, hhask, fun k1 _ => Iff.trans (Iff.rfl) (hkeys1 k1),
      iff_of_false Bool.false_ne_true (not_not_intro ((hkeys1 key).mp ⟨i, hilt, hsome⟩))⟩
    refine ⟨htwf1.ksize, ?_, htwf1.capPow, ?_, ?_, ?_, htwf1.nodup, ?_⟩
    · show (t1.values.setD i (some value)).size = t1.capacity
      rw [Array.size_setD]
      exact htwf1.vsize
    · show 4 * t1.count ≤ 3 * t1.capacity
      exact htwf1.load
    · show t1.count = numDefined tr
      have hnd : numDefined tr
          = (List.range t1.capacity).countP (fun j => (valAt tr j).isSome) := by
        rw [numDefined_countP]
      rw [hnd]
      have heq : (List.range t1.capacity).countP (fun j => (valAt tr j).isSome)
          = (List.range t1.capacity).countP (fun j => (valAt t1 j).isSome) := by
        apply countP_congr_list
        intro x hx
        by_cases hxi : x = i
        · subst hxi
          show (valAt tr x).isSome = (valAt t1 x).isSome
          rw [hvalAti, hvi]
          rfl
        · show (valAt tr x).isSome = (valAt t1 x).isSome
          rw [hvalAt x hxi]
      have hnd1 := numDefined_countP t1
      have hcd1 := htwf1.countDef
      omega
    · intro j hj hk
      by_cases hji : j = i
      · subst hji
        show (valAt tr j).isSome
        rw [hvalAti]
        rfl
      · show (valAt tr j).isSome
        rw [hvalAt j hji]
        exact htwf1.keyVal j hj hk
    · intro j hj k hk
      obtain ⟨d1, hd1, hjeq, hpre1⟩ := htwf1.reach j hj k hk
      exact ⟨d1, hd1, hjeq, fun j2 hj2 => hnotfree _ (hpre1 j2 hj2)⟩

/-- The fresh `new Table()` is well-formed. -/
theorem twf_empty {α : Type} : TWF (Table.empty : Table α) := by
  refine ⟨rfl, rfl, Or.inl rfl, ?_, rfl, ?_, ?_, ?_⟩
  · show 4 * 0 ≤ 3 * 0
    omega
  · intro i hi
    exact absurd hi (Nat.not_lt_zero i)
  · intro i hi
    exact absurd hi (Nat.not_lt_zero i)
  · intro i hi
    exact absurd hi (Nat.not_lt_zero i)

/-- Folding `set` over a list of defined entries stays total and
well-formed. -/
theorem addAll_fold {α : Type} : ∀ (l : List (LoxStr × Option α)),
    (∀ kv ∈ l, (kv.2).isSome) → ∀ acc : Table α, TWF acc →
    ∃ r, l.foldl addAllStep (some acc) = some r ∧ TWF r := by
  intro l
  induction l with
  | nil =>
    intro _ acc hacc
    exact ⟨acc, rfl, hacc⟩
  | cons kv rest ih =>
    intro hall acc hacc
    have hkv := hall kv (List.mem_cons_self kv rest)
    cases hv : kv.2 with
    | none =>
      rw [hv] at hkv
      cases hkv
    | some v =>
      obtain ⟨r1, hset, htwfr, _, _, _⟩ := set_spec acc kv.1 v hacc
      rw [List.foldl_cons]
      have hstep : addAllStep (some acc) kv = some r1.2 := by
        show (match kv.2 with
          | none => (none : Option (Table α))
          | some v => (acc.set kv.1 v).map Prod.snd) = some r1.2
        rw [hv]
        show (acc.set kv.1 v).map Prod.snd = some r1.2
        rw [hset]
        rfl
      rw [hstep]
      exact ih (fun kv2 hkv2 => hall kv2 (List.mem_cons_of_mem kv hkv2)) r1.2 htwfr

/-- `Table.addAll` is total on well-formed tables and preserves
well-formedness. -/
theorem addAll_spec {α : Type} (t other : Table α) (htwf : TWF t) (hother : TWF other) :
    ∃ r, t.addAll other = some r ∧ TWF r := by
  have hall : ∀ kv ∈ other.entriesList, (kv.2).isSome := by
    intro kv hkv
    unfold Table.entriesList at hkv
    rw [List.mem_filterMap] at hkv
    obtain ⟨i, hi, hfi⟩ := hkv
    rw [List.mem_range] at hi
    cases hk : other.keys.getD i none with
    | none =>
      rw [hk] at hfi
      cases hfi
    | some k =>
      rw [hk] at hfi
      have hfi2 : some (k, other.values.getD i none) = some kv := hfi
      have hkv2 : (k, other.values.getD i none) = kv := Option.some_inj.mp hfi2
      rw [← hkv2]
      show (other.values.getD i none).isSome
      exact hother.keyVal i hi (by
        show (other.keys.getD i none).isSome
        rw [hk]
        rfl)
  exact addAll_fold other.entriesList hall t htwf

/-- Every table the program can reach is well-formed. -/
theorem treach_twf {α : Type} (t : Table α) (h : TReach t) : TWF t := by
  induction h with
  | init => exact twf_empty
  | set t0 k v r _ hset ih =>
    obtain ⟨r2, hset2, htwf2, _, _, _⟩ := set_spec t0 k v ih
    rw [hset2] at hset
    have h2 : r2 = r := Option.some_inj.mp hset
    rw [← h2]
    exact htwf2
  | del t0 k r _ hdel ih =>
    obtain ⟨r2, hdel2, htwf2, _, _, _⟩ := delete_spec t0 k ih
    rw [hdel2] at hdel
    have h2 : r2 = r := Option.some_inj.mp hdel
    rw [← h2]
    exact htwf2
  | addAll t0 other r _ _ hadd iht ihother =>
    obtain ⟨r2, hadd2, htwf2⟩ := addAll_spec t0 other iht ihother
    rw [hadd2] at hadd
    have h2 : r2 = r := Option.some_inj.mp hadd
    rw [← h2]
    exact htwf2

/-! ## findString: termination and correctness of the string probe -/

/-- With a fully-empty slot in range, the findString loop never runs out of
its capacity budget. -/
theorem fsLoop_free_stops {α : Type} (t : Table α) (chars : String) (hash : Int)
    (m : Nat) (hcap : t.capacity = 2^m) (hpos : 0 < t.capacity) :
    ∀ (fuel idx : Nat), idx < t.capacity →
    (∃ d, d < fuel ∧ (t.keys.getD ((idx + d) % t.capacity) none).isNone ∧
      (t.values.getD ((idx + d) % t.capacity) none).isNone) →
    fsLoop t chars hash idx fuel ≠ .wtf := by
  intro fuel
  induction fuel with
  | zero =>
    intro idx _ hex
    obtain ⟨d, hd, _⟩ := hex
    omega
  | succ f ih =>
    intro idx hidx hex
    obtain ⟨d, hd, hk, hv⟩ := hex
    have hnext : (idx + 1) &&& (t.capacity - 1) = (idx + 1) % t.capacity := by
      rw [and_mask_mod t.capacity (idx + 1) m hcap]
    have hnextlt : (idx + 1) % t.capacity < t.capacity := Nat.mod_lt _ hpos
    have hrec : d ≠ 0 →
        fsLoop t chars hash ((idx + 1) &&& (t.capacity - 1)) f ≠ .wtf := by
      intro hd0
      rw [hnext]
      apply ih _ hnextlt
      refine ⟨d - 1, by omega, ?_, ?_⟩
      · rw [walk_shift, show d - 1 + 1 = d by omega]
        exact hk
      · rw [walk_shift, show d - 1 + 1 = d by omega]
        exact hv
    show (match t.keys.getD idx none with
      | none =>
        if (t.values.getD idx none).isNone then FSResult.absent
        else fsLoop t chars hash ((idx+1) &&& (t.capacity-1)) f
      | some key =>
        if key.hash = hash ∧ key.chars = chars then FSResult.found key
        else fsLoop t chars hash ((idx+1) &&& (t.capacity-1)) f) ≠ .wtf
    cases hkey : t.keys.getD idx none with
    | none =>
      show (if (t.values.getD idx none).isNone then FSResult.absent
        else fsLoop t chars hash ((idx+1) &&& (t.capacity-1)) f) ≠ .wtf
      by_cases hval : (t.values.getD idx none).isNone
      · rw [if_pos hval]
        intro hcon
        cases hcon
      · rw [if_neg hval]
        apply hrec
        intro hd0
        subst hd0
        rw [Nat.add_zero, Nat.mod_eq_of_lt hidx] at hv
        exact hval hv
    | some key =>
      show (if key.hash = hash ∧ key.chars = chars then FSResult.found key
        else fsLoop t chars hash ((idx+1) &&& (t.capacity-1)) f) ≠ .wtf
      by_cases hmatch : key.hash = hash ∧ key.chars = chars
      · rw [if_pos hmatch]
        intro hcon
        cases hcon
      · rw [if_neg hmatch]
        apply hrec
        intro hd0
        subst hd0
        rw [Nat.add_zero, Nat.mod_eq_of_lt hidx] at hk
        rw [hkey] at hk
        cases hk

/-- On well-formed tables findString never reaches its throw. -/
theorem findString_no_wtf {α : Type} (t : Table α) (htwf : TWF t)
    (chars : String) (hash : Int) : t.findString chars hash ≠ .wtf := by
  unfold Table.findString
  by_cases hc : t.count = 0
  · rw [if_pos hc]
    intro hcon
    cases hcon
  · rw [if_neg hc]
    have hpos := cap_pos_of_count_pos t htwf hc
    obtain ⟨m, hm3, hm⟩ := twf_cap_pow t htwf hpos
    have hstart : probeStart hash (t.capacity - 1) < t.capacity := by
      unfold probeStart
      rw [and_mask_mod t.capacity _ m hm]
      exact Nat.mod_lt _ hpos
    obtain ⟨d, hd, hk, hv⟩ := twf_free_exists t htwf hpos _ hstart
    exact fsLoop_free_stops t chars hash m hm hpos t.capacity _ hstart ⟨d, hd, hk, hv⟩

/-- A `found` answer of the findString loop names a stored key whose hash
and characters match the query. -/
theorem fsLoop_found {α : Type} (t : Table α) (chars : String) (hash : Int)
    (m : Nat) (hcap : t.capacity = 2^m) (hpos : 0 < t.capacity) :
    ∀ (fuel idx : Nat) (key : LoxStr), idx < t.capacity →
    fsLoop t chars hash idx fuel = .found key →
    ∃ i, i < t.capacity ∧ keyAt t i = some key ∧
      key.hash = hash ∧ key.chars = chars := by
  intro fuel
  induction fuel with
  | zero =>
    intro idx key _ hfind
    cases hfind
  | succ f ih =>
    intro idx key hidx hfind
    have hnextlt : (idx + 1) &&& (t.capacity - 1) < t.capacity := by
      rw [and_mask_mod t.capacity (idx + 1) m hcap]
      exact Nat.mod_lt _ hpos
    have hfind2 : (match t.keys.getD idx none with
      | none =>
        if (t.values.getD idx none).isNone then FSResult.absent
        else fsLoop t chars hash ((idx+1) &&& (t.capacity-1)) f
      | some key2 =>
        if key2.hash = hash ∧ key2.chars = chars then FSResult.found key2
        else fsLoop t chars hash ((idx+1) &&& (t.capacity-1)) f) = .found key := hfind
    cases hkey : t.keys.getD idx none with
    | none =>
      rw [hkey] at hfind2
      have hfind3 : (if (t.values.getD idx none).isNone then FSResult.absent
          else fsLoop t chars hash ((idx+1) &&& (t.capacity-1)) f) = .found key := hfind2
      by_cases hval : (t.values.getD idx none).isNone
      · rw [if_pos hval] at hfind3
        cases hfind3
      · rw [if_neg hval] at hfind3
        exact ih _ key hnextlt hfind3
    | some key2 =>
      rw [hkey] at hfind2
      have hfind3 : (if key2.hash = hash ∧ key2.chars = chars then FSResult.found key2
          else fsLoop t chars hash ((idx+1) &&& (t.capacity-1)) f) = .found key := hfind2
      by_cases hmatch : key2.hash = hash ∧ key2.chars = chars
      · rw [if_pos hmatch] at hfind3
        have hk2 : key2 = key := by
          cases hfind3
          rfl
        subst hk2
        exact ⟨idx, hidx, hkey, hmatch⟩
      · rw [if_neg hmatch] at hfind3
        exact ih _ key hnextlt hfind3

/-- An `absent` answer of the findString loop pins a fully-empty slot on the
probe path, every earlier slot having failed the string match. -/
theorem fsLoop_absent_path {α : Type} (t : Table α) (chars : String) (hash : Int)
    (m : Nat) (hcap : t.capacity = 2^m) (hpos : 0 < t.capacity) (start : Nat) :
    ∀ (fuel s : Nat),
    (∀ j, j < s → fsPass t chars hash ((start + j) % t.capacity)) →
    fsLoop t chars hash ((start + s) % t.capacity) fuel = .absent →
    ∃ d, s ≤ d ∧ d < s + fuel ∧ slotFree t ((start + d) % t.capacity) ∧
      ∀ j, j < d → fsPass t chars hash ((start + j) % t.capacity) := by
  intro fuel
  induction fuel with
  | zero =>
    intro s _ hfind
    cases hfind
  | succ f ih =>
    intro s hpass hfind
    have hidx : (start + s) % t.capacity < t.capacity := Nat.mod_lt _ hpos
    have hnext : ((start + s) % t.capacity + 1) &&& (t.capacity - 1)
        = (start + (s + 1)) % t.capacity := by
      rw [and_mask_mod t.capacity _ m hcap, walk_step]
    have hfind2 : (match t.keys.getD ((start + s) % t.capacity) none with
      | none =>
        if (t.values.getD ((start + s) % t.capacity) none).isNone then FSResult.absent
        else fsLoop t chars hash
          (((start + s) % t.capacity + 1) &&& (t.capacity-1)) f
      | some key2 =>
        if key2.hash = hash ∧ key2.chars = chars then FSResult.found key2
        else fsLoop t chars hash
          (((start + s) % t.capacity + 1) &&& (t.capacity-1)) f) = .absent := hfind
    cases hkey : t.keys.getD ((start + s) % t.capacity) none with
    | none =>
      rw [hkey] at hfind2
      have hfind3 : (if (t.values.getD ((start + s) % t.capacity) none).isNone
          then FSResult.absent
          else fsLoop t chars hash
            (((start + s) % t.capacity + 1) &&& (t.capacity-1)) f) = .absent := hfind2
      by_cases hval : (t.values.getD ((start + s) % t.capacity) none).isNone
      · refine ⟨s, le_refl s, by omega, ⟨by show (t.keys.getD _ none).isNone; rw [hkey]; rfl,
          hval⟩, hpass⟩
      · rw [if_neg hval, hnext] at hfind3
        have hpass1 : ∀ j, j < s + 1 → fsPass t chars hash ((start + j) % t.capacity) := by
          intro j hj
          rcases Nat.lt_or_ge j s with h2 | h2
          · exact hpass j h2
          · have : j = s := by omega
            subst this
            refine ⟨?_, ?_⟩
            · intro hfree
              exact hval hfree.2
            · intro key2 hk2
              unfold keyAt at hk2
              rw [hkey] at hk2
              cases hk2
        obtain ⟨d, hd1, hd2, hd3, hd4⟩ := ih (s + 1) hpass1 hfind3
        exact ⟨d, by omega, by omega, hd3, hd4⟩
    | some key2 =>
      rw [hkey] at hfind2
      have hfind3 : (if key2.hash = hash ∧ key2.chars = chars then FSResult.found key2
          else fsLoop t chars hash
            (((start + s) % t.capacity + 1) &&& (t.capacity-1)) f) = .absent := hfind2
      by_cases hmatch : key2.hash = hash ∧ key2.chars = chars
      · rw [if_pos hmatch] at hfind3
        cases hfind3
      · rw [if_neg hmatch, hnext] at hfind3
        have hpass1 : ∀ j, j < s + 1 → fsPass t chars hash ((start + j) % t.capacity) := by
          intro j hj
          rcases Nat.lt_or_ge j s with h2 | h2
          · exact hpass j h2
          · have : j = s := by omega
            subst this
            refine ⟨?_, ?_⟩
            · intro hfree
              have h3 := hfree.1
              unfold keyAt at h3
              rw [hkey] at h3
              simp at h3
            · intro key3 hk3
              unfold keyAt at hk3
              rw [hkey] at hk3
              have : key2 = key3 := Option.some_inj.mp hk3
              rw [← this]
              exact hmatch
        obtain ⟨d, hd1, hd2, hd3, hd4⟩ := ih (s + 1) hpass1 hfind3
        exact ⟨d, by omega, by omega, hd3, hd4⟩

/-- When findString answers `absent` on a well-formed table, no stored key
matches the queried hash and characters. -/
theorem findString_absent {α : Type} (t : Table α) (htwf : TWF t)
    (chars : String) (hash : Int)
    (habs : t.findString chars hash = .absent) :
    ∀ i, i < t.capacity → ∀ k, keyAt t i = some k →
      ¬ (k.hash = hash ∧ k.chars = chars) := by
  intro i hi k hk hmatch
  by_cases hc : t.count = 0
  · exact count_zero_no_keys t htwf hc k ⟨i, hi, hk⟩
  · have hpos := cap_pos_of_count_pos t htwf hc
    obtain ⟨m, hm3, hm⟩ := twf_cap_pow t htwf hpos
    have hstart : probeStart hash (t.capacity - 1) < t.capacity := by
      unfold probeStart
      rw [and_mask_mod t.capacity _ m hm]
      exact Nat.mod_lt _ hpos
    have habs2 : fsLoop t chars hash
        ((probeStart hash (t.capacity - 1) + 0) % t.capacity) t.capacity = .absent := by
      rw [Nat.add_zero, Nat.mod_eq_of_lt hstart]
      unfold Table.findString at habs
      rw [if_neg hc] at habs
      exact habs
    obtain ⟨de, _, hde2, hfree, hpassall⟩ := fsLoop_absent_path t chars hash m hm hpos
      (probeStart hash (t.capacity - 1)) t.capacity 0 (by omega) habs2
    obtain ⟨dk, hdk, hieq, hreachpre⟩ := htwf.reach i hi k hk
    have hsame : startIdxOf t k.hash = probeStart hash (t.capacity - 1) := by
      unfold startIdxOf
      rw [hmatch.1]
    rcases Nat.lt_trichotomy dk de with hlt | heq | hgt
    · have hp := hpassall dk hlt
      have := hp.2 k (by
        unfold probeAt at hieq
        rw [hsame] at hieq
        rw [← hieq]
        exact hk)
      exact this hmatch
    · subst heq
      unfold probeAt at hieq
      rw [hsame] at hieq
      rw [← hieq] at hfree
      have h3 := hfree.1
      unfold keyAt at h3
      unfold keyAt at hk
      rw [hk] at h3
      simp at h3
    · have hp := hreachpre de hgt
      unfold probeAt at hp
      rw [hsame] at hp
      exact hp hfree

/-- C10: every table reachable through the program's table operations keeps
at least one slot whose value is undefined (the growth policy counts
tombstones toward the 0.75 load bound), so the linear probe of `Table.#find`
terminates at a slot within capacity steps and `findString` never reaches
its `throw new Error("wtf!?")`. -/
theorem c10_probe_termination {α : Type} (t : Table α) (h : TReach t) :
    (0 < t.capacity → ∃ e, e < t.capacity ∧ (valAt t e).isNone) ∧
    (∀ k : LoxStr, 0 < t.capacity →
      ∃ i, i < t.capacity ∧ tfind t.keys t.values (t.capacity - 1) k = some i) ∧
    (∀ chars hash, t.findString chars hash ≠ FSResult.wtf) := by
  have htwf := treach_twf t h
  refine ⟨?_, ?_, ?_⟩
  · intro hpos
    have hload := htwf.load
    have hcd := htwf.countDef
    have hcnt : (List.range t.capacity).countP
        (fun x => (t.values.getD x none).isSome) < t.capacity := by
      have h2 : (List.range t.capacity).countP
          (fun x => (t.values.getD x none).isSome) = numDefined t := by
        rw [numDefined_countP]
        exact countP_congr_list _ _ _ (fun x _ => rfl)
      omega
    obtain ⟨e, he, hev⟩ := exists_val_none t.values t.capacity hcnt
    exact ⟨e, he, hev⟩
  · intro k hpos
    obtain ⟨i, hfind, hilt, _⟩ := tfind_spec t k htwf hpos
    exact ⟨i, hilt, hfind⟩
  · intro chars hash
    exact findString_no_wtf t htwf chars hash

theorem c10_probe_termination_witness :
    (0 < c10t.capacity → ∃ e, e < c10t.capacity ∧ (valAt c10t e).isNone) ∧
    (∀ k : LoxStr, 0 < c10t.capacity →
      ∃ i, i < c10t.capacity ∧ tfind c10t.keys c10t.values (c10t.capacity - 1) k = some i) ∧
    (∀ chars hash, c10t.findString chars hash ≠ FSResult.wtf) :=
  c10_probe_termination c10t
    (TReach.set Table.empty c10k 0 c10r TReach.init (by decide))

/-- `Pool.intern` with its let-bindings expanded. -/
theorem intern_eq (p : Pool) (name : String) :
    p.intern name =
      match p.strings.findString name (hashString name) with
      | .found key => some (key, p)
      | .absent =>
        (p.strings.set ⟨p.nextId, name, hashString name⟩ Value.nil).map fun r =>
          (⟨p.nextId, name, hashString name⟩,
            { strings := r.2, nextId := p.nextId + 1 })
      | .wtf => none := rfl

/-- When findString answers `found`, the key is stored and matches. -/
theorem findString_found {α : Type} (t : Table α) (htwf : TWF t)
    (chars : String) (hash : Int) (key : LoxStr)
    (hf : t.findString chars hash = .found key) :
    ∃ i, i < t.capacity ∧ keyAt t i = some key ∧
      key.hash = hash ∧ key.chars = chars := by
  unfold Table.findString at hf
  by_cases hc : t.count = 0
  · rw [if_pos hc] at hf
    cases hf
  · rw [if_neg hc] at hf
    have hpos := cap_pos_of_count_pos t htwf hc
    obtain ⟨m, hm3, hm⟩ := twf_cap_pow t htwf hpos
    have hstart : probeStart hash (t.capacity - 1) < t.capacity := by
      unfold probeStart
      rw [and_mask_mod t.capacity _ m hm]
      exact Nat.mod_lt _ hpos
    exact fsLoop_found t chars hash m hm hpos t.capacity _ key hstart hf

/-- `Pool.intern` is total on well-formed pools, preserves well-formedness,
returns a stored string with the requested characters, and returns the
already-interned object (and the unchanged pool) when one exists. -/
theorem intern_spec (p : Pool) (name : String) (hp : PoolWF p) :
    ∃ s1 p1, p.intern name = some (s1, p1) ∧ PoolWF p1 ∧
      s1.chars = name ∧ s1.hash = hashString name ∧ PoolHas p1 s1 ∧
      (∀ s, PoolHas p s → s.chars = name → s1 = s ∧ p1 = p) := by
  cases hfs : p.strings.findString name (hashString name) with
  | found key =>
    obtain ⟨i, hi, hki, hkh, hkc⟩ := findString_found p.strings hp.twf name _ key hfs
    refine ⟨key, p, ?_, hp, hkc, hkh, ⟨i, hi, hki⟩, ?_⟩
    · rw [intern_eq, hfs]
    · rintro s ⟨j, hj, hsj⟩ hsc
      exact ⟨hp.uniqChars i hi j hj key s hki hsj (by rw [hkc, hsc]), rfl⟩
  | absent =>
    have habsinfo := findString_absent p.strings hp.twf name _ hfs
    obtain ⟨r, hset, htwfr, hhask, hothers, _⟩ :=
      set_spec p.strings ⟨p.nextId, name, hashString name⟩ Value.nil hp.twf
    refine ⟨⟨p.nextId, name, hashString name⟩, ⟨r.2, p.nextId + 1⟩, ?_, ?_, rfl, rfl,
      hhask, ?_⟩
    · rw [intern_eq, hfs, hset]
      rfl
    · refine ⟨htwfr, ?_, ?_, ?_⟩
      · intro i hi k hk
        by_cases hkn : k = ⟨p.nextId, name, hashString name⟩
        · rw [hkn]
        · have hold := (hothers k hkn).mp ⟨i, hi, hk⟩
          obtain ⟨j, hj, hkj⟩ := hold
          exact hp.hashOk j hj k hkj
      · intro i hi j hj k k1 hk hk1 hcc
        by_cases hkn : k = ⟨p.nextId, name, hashString name⟩ <;>
          by_cases hkn1 : k1 = ⟨p.nextId, name, hashString name⟩
        · rw [hkn, hkn1]
        · exfalso
          obtain ⟨j2, hj2, hk1j⟩ := (hothers k1 hkn1).mp ⟨j, hj, hk1⟩
          have hhash1 := hp.hashOk j2 hj2 k1 hk1j
          have hcc1 : k1.chars = name := by
            rw [← hcc, hkn]
          exact habsinfo j2 hj2 k1 hk1j ⟨by rw [hhash1, hcc1], hcc1⟩
        · exfalso
          obtain ⟨j2, hj2, hkj⟩ := (hothers k hkn).mp ⟨i, hi, hk⟩
          have hhash1 := hp.hashOk j2 hj2 k hkj
          have hcc1 : k.chars = name := by
            rw [hcc, hkn1]
          exact habsinfo j2 hj2 k hkj ⟨by rw [hhash1, hcc1], hcc1⟩
        · obtain ⟨j2, hj2, hkj⟩ := (hothers k hkn).mp ⟨i, hi, hk⟩
          obtain ⟨j3, hj3, hk1j⟩ := (hothers k1 hkn1).mp ⟨j, hj, hk1⟩
          exact hp.uniqChars j2 hj2 j3 hj3 k k1 hkj hk1j hcc
      · intro i hi k hk
        by_cases hkn : k = ⟨p.nextId, name, hashString name⟩
        · rw [hkn]
          show p.nextId < p.nextId + 1
          omega
        · obtain ⟨j2, hj2, hkj⟩ := (hothers k hkn).mp ⟨i, hi, hk⟩
          have := hp.idFresh j2 hj2 k hkj
          show k.id < p.nextId + 1
          omega
    · rintro s ⟨j, hj, hsj⟩ hsc
      exfalso
      have hhash1 := hp.hashOk j hj s hsj
      exact habsinfo j hj s hsj ⟨by rw [hhash1, hsc], hsc⟩
  | wtf => exact absurd hfs (findString_no_wtf p.strings hp.twf name _)

/-- C6: interning is idempotent and canonical: intern returns a stored
string with the requested characters; interning the characters of an
already-interned string returns that same object with the pool unchanged
(so two interns of equal character sequences return the same reference),
and two interned strings have equal characters iff they are the same
object. -/
theorem c6_intern_canonical (p : Pool) (name : String) (hp : PoolWF p) :
    ∃ s1 p1, p.intern name = some (s1, p1) ∧ PoolWF p1 ∧ s1.chars = name ∧
      p1.intern s1.chars = some (s1, p1) ∧
      (∀ s, PoolHas p s → s.chars = name → s1 = s ∧ p1 = p) ∧
      (∀ a b, PoolHas p1 a → PoolHas p1 b → (a.chars = b.chars ↔ a = b)) := by
  obtain ⟨s1, p1, heq, hp1, hchars, hhash, hhas, hcanon⟩ := intern_spec p name hp
  obtain ⟨s2, p2, heq2, _, _, _, _, hcanon2⟩ := intern_spec p1 name hp1
  obtain ⟨hs21, hp21⟩ := hcanon2 s1 hhas hchars
  refine ⟨s1, p1, heq, hp1, hchars, ?_, hcanon, ?_⟩
  · rw [hchars, heq2, hs21, hp21]
  · intro a b ha hb
    constructor
    · intro hab
      obtain ⟨i, hi, hka⟩ := ha
      obtain ⟨j, hj, hkb⟩ := hb
      exact hp1.uniqChars i hi j hj a b hka hkb hab
    · intro hab
      rw [hab]

theorem c6_intern_canonical_witness :
    ∃ s1 p1, Pool.empty.intern "x" = some (s1, p1) ∧ PoolWF p1 ∧ s1.chars = "x" ∧
      p1.intern s1.chars = some (s1, p1) ∧
      (∀ s, PoolHas Pool.empty s → s.chars = "x" → s1 = s ∧ p1 = Pool.empty) ∧
      (∀ a b, PoolHas p1 a → PoolHas p1 b → (a.chars = b.chars ↔ a = b)) :=
  c6_intern_canonical Pool.empty "x"
    ⟨twf_empty, fun i hi => absurd hi (Nat.not_lt_zero i),
      fun i hi => absurd hi (Nat.not_lt_zero i),
      fun i hi => absurd hi (Nat.not_lt_zero i)⟩

/-- C5: executing SET_GLOBAL with a name that is not a key of the globals
table reports a runtime error (appending it to the error log) and leaves
the name absent from the globals afterwards: a lookup still reports it
undefined, the insert done by the check having been undone by the delete. -/
theorem c5_set_global_undefined_reverts (s : VMState) (f : FuncData)
    (name : LoxStr) (s1 : VMState) (v : Value)
    (hread : readStringOp s f = (some name, s1))
    (hpeek : peekStk s1 0 = some v)
    (htwf : TWF s1.globals)
    (hmiss : ¬ HasKeyT s1.globals name) :
    ∃ g2 : Table Value,
      execOp s f .SET_GLOBAL =
        .halt .runtimeError
          (runtimeErrorVM { s1 with globals := g2 }
            ("Undefined global '" ++ name.chars ++ "'.")) ∧
      (runtimeErrorVM { s1 with globals := g2 }
          ("Undefined global '" ++ name.chars ++ "'.")).errLog
        = s1.errLog ++ ["Undefined global '" ++ name.chars ++ "'."] ∧
      ¬ HasKeyT g2 name ∧ g2.get name = some none := by
  obtain ⟨r, hset, htwfr, hhask, hothers, hnew⟩ := set_spec s1.globals name v htwf
  obtain ⟨risNew, g1⟩ := r
  have hisNew : risNew = true := hnew.mpr hmiss
  subst hisNew
  obtain ⟨rd, hdel, htwfd, hnothask, hothers2, hcap⟩ := delete_spec g1 name htwfr
  obtain ⟨rdb, g2⟩ := rd
  obtain ⟨o, hget, habs⟩ := get_spec g2 name htwfd
  have ho : o = none := habs hnothask
  subst ho
  have e1 : execOp s f .SET_GLOBAL = (match peekStk s1 0 with
      | none => Step.stuck s1
      | some v =>
        match s1.globals.set name v with
        | none => Step.stuck s1
        | some (isNewKey, g1) =>
          if isNewKey then
            match g1.delete name with
            | none => Step.stuck s1
            | some r =>
              Step.halt .runtimeError
                (runtimeErrorVM { s1 with globals := r.2 }
                  ("Undefined global '" ++ name.chars ++ "'."))
          else Step.cont { s1 with globals := g1 }) := by
    simp only [execOp]
    rw [hread]
  have e2 : execOp s f .SET_GLOBAL = (match s1.globals.set name v with
      | none => Step.stuck s1
      | some (isNewKey, g1) =>
        if isNewKey then
          match g1.delete name with
          | none => Step.stuck s1
          | some r =>
            Step.halt .runtimeError
              (runtimeErrorVM { s1 with globals := r.2 }
                ("Undefined global '" ++ name.chars ++ "'."))
        else Step.cont { s1 with globals := g1 }) := by
    rw [e1, hpeek]
  have e3 : execOp s f .SET_GLOBAL = (if true = true then
      match g1.delete name with
      | none => Step.stuck s1
      | some r =>
        Step.halt .runtimeError
          (runtimeErrorVM { s1 with globals := r.2 }
            ("Undefined global '" ++ name.chars ++ "'."))
      else Step.cont { s1 with globals := g1 }) := by
    rw [e2, hset]
  have e4 : execOp s f .SET_GLOBAL = Step.halt .runtimeError
      (runtimeErrorVM { s1 with globals := g2 }
        ("Undefined global '" ++ name.chars ++ "'.")) := by
    rw [e3, hdel]
    rfl
  exact ⟨g2, e4, rfl, hnothask, hget⟩

theorem c5_set_global_undefined_reverts_witness :
    ∃ g2 : Table Value,
      execOp c5s c5Func .SET_GLOBAL =
        .halt .runtimeError
          (runtimeErrorVM { c5s1 with globals := g2 }
            ("Undefined global '" ++ c5Name.chars ++ "'.")) ∧
      (runtimeErrorVM { c5s1 with globals := g2 }
          ("Undefined global '" ++ c5Name.chars ++ "'.")).errLog
        = c5s1.errLog ++ ["Undefined global '" ++ c5Name.chars ++ "'."] ∧
      ¬ HasKeyT g2 c5Name ∧ g2.get c5Name = some none :=
  c5_set_global_undefined_reverts c5s c5Func c5Name c5s1 (.closureRef 0)
    rfl rfl twf_empty (by unfold HasKeyT; decide)

end TsLox
